import Mathlib

/-!
# Shallow embedding of `package persian` (src/main.go)

Modelling conventions.

* A Go `rune` is an `int32`; no arithmetic is performed on runes in the
  program, only comparisons, so a rune is an `Int`.
* A Go `string` is a sequence of bytes (`GoBytes`). `range s` and `[]rune(s)`
  decode it (`decodeRunes`; a byte outside a valid UTF-8 sequence is read as
  U+FFFD), and `string(r)` encodes a rune (`encodeRune`). A string that the
  program builds from runes is the encoding of its rune sequence and is
  modelled by that sequence, a `List rune` (`decodeRunes_encodeRunes`: reading
  it back gives the sequence). `ReShapeString` and `shapeWordString` are the
  functions on bytes.
* An index expression `xs[i]` panics in Go when `i` is out of range; the
  embedding makes every index expression return an `Option` (`index`), and
  every function that contains one returns an `Option`: `none` is a panic.
* `unicode.IsSpace`, `strings.TrimSpace`, `strings.Fields`, `strings.Join`
  and `strings.NewReplacer(...).Replace` belong to the Go standard library;
  they are modelled after their documented behaviour.
-/

set_option autoImplicit false

namespace persian

/-- Go `rune` (`int32`). -/
abbrev rune := Int

/-- Go `string`, as its sequence of runes. -/
abbrev GoString := List rune

/-- The letter and its bounding letters (main.go, `letterGroup`). -/
structure letterGroup where
  backLetter : rune
  letter : rune
  frontLetter : rune

/-- All shapes of a letter in a word (main.go, `letterShape`). -/
structure letterShape where
  Isolated : rune
  Initial : rune
  Medial : rune
  Final : rune
deriving DecidableEq

/-- The map of shapes of the alphabet (main.go, `persianAlphabetShapes`), as
the list of its key/value pairs in source order. -/
def persianAlphabetShapes : List (rune × letterShape) := [
  (0x0622, ⟨0xFE81, 0x0622, 0xFE82, 0xFE82⟩),
  (0x0627, ⟨0xFE8D, 0x0627, 0xFE8E, 0xFE8E⟩),
  (0x0628, ⟨0xFE8F, 0xFE91, 0xFE92, 0xFE90⟩),
  (0x067E, ⟨0xFB56, 0xFB58, 0xFB59, 0xFB57⟩),
  (0x062A, ⟨0xFE95, 0xFE97, 0xFE98, 0xFE96⟩),
  (0x062B, ⟨0xFE99, 0xFE9B, 0xFE9C, 0xFE9A⟩),
  (0x062C, ⟨0xFE9D, 0xFE9F, 0xFEA0, 0xFE9E⟩),
  (0x0686, ⟨0xFB7A, 0xFB7C, 0xFB7D, 0xFB7B⟩),
  (0x062D, ⟨0xFEA1, 0xFEA3, 0xFEA4, 0xFEA2⟩),
  (0x062E, ⟨0xFEA5, 0xFEA7, 0xFEA8, 0xFEA6⟩),
  (0x062F, ⟨0xFEA9, 0x062F, 0xFEAA, 0xFEAA⟩),
  (0x0630, ⟨0xFEAB, 0x0630, 0xFEAC, 0xFEAC⟩),
  (0x0631, ⟨0xFEAD, 0x0631, 0xFEAE, 0xFEAE⟩),
  (0x0632, ⟨0xFEAF, 0x0632, 0xFEB0, 0xFEB0⟩),
  (0x0698, ⟨0xFB8A, 0x0698, 0xFB8B, 0xFB8B⟩),
  (0x0633, ⟨0xFEB1, 0xFEB3, 0xFEB4, 0xFEB2⟩),
  (0x0634, ⟨0xFEB5, 0xFEB7, 0xFEB8, 0xFEB6⟩),
  (0x0635, ⟨0xFEB9, 0xFEBB, 0xFEBC, 0xFEBA⟩),
  (0x0636, ⟨0xFEBD, 0xFEBF, 0xFEC0, 0xFEBE⟩),
  (0x0637, ⟨0xFEC1, 0xFEC3, 0xFEC4, 0xFEC2⟩),
  (0x0638, ⟨0xFEC5, 0xFEC7, 0xFEC8, 0xFEC6⟩),
  (0x0639, ⟨0xFEC9, 0xFECB, 0xFECC, 0xFECA⟩),
  (0x063A, ⟨0xFECD, 0xFECF, 0xFED0, 0xFECE⟩),
  (0x0641, ⟨0xFED1, 0xFED3, 0xFED4, 0xFED2⟩),
  (0x0642, ⟨0xFED5, 0xFED7, 0xFED8, 0xFED6⟩),
  (0x06A9, ⟨0xFB8E, 0xFB90, 0xFB91, 0xFB8F⟩),
  (0x06AF, ⟨0xFB92, 0xFB94, 0xFB95, 0xFB93⟩),
  (0x0644, ⟨0xFEDD, 0xFEDF, 0xFEE0, 0xFEDE⟩),
  (0x0645, ⟨0xFEE1, 0xFEE3, 0xFEE4, 0xFEE2⟩),
  (0x0646, ⟨0xFEE5, 0xFEE7, 0xFEE8, 0xFEE6⟩),
  (0x0648, ⟨0xFEED, 0x0648, 0xFEEE, 0xFEEE⟩),
  (0x0647, ⟨0xFEE9, 0xFEEB, 0xFEEC, 0xFEEA⟩),
  (0x06CC, ⟨0xFBFC, 0xFBFE, 0xFBFF, 0xFBFD⟩)]

/-- The two-value map read `v, ok := persianAlphabetShapes[k]`: `some v` when
`k` is a key, `none` when it is not. -/
def shapeLookup (k : rune) : Option letterShape :=
  persianAlphabetShapes.lookup k

/-- The one-value map read `persianAlphabetShapes[k]`: the entry of `k`, or the
zero value of `letterShape` when `k` is not a key. -/
def shapeOf (k : rune) : letterShape :=
  (shapeLookup k).getD ⟨0, 0, 0, 0⟩

/-- The array literal inside `isNoneLeftJoiningLetter`. -/
def nonLeftJoiningLetters : List rune :=
  [0x0627, 0x0622, 0x0698, 0x062F, 0x0630, 0x0631, 0x0632, 0x0648]

/-- Letters after which the next letter takes its initial form
(main.go, `isNoneLeftJoiningLetter`): the loop returns `true` at the first
item equal to `letter`, `false` when there is none. -/
def isNoneLeftJoiningLetter (letter : rune) : Bool :=
  nonLeftJoiningLetters.any (fun item => item == letter)

/-- Range test of a letter (main.go, `IsPersianLetter`). -/
def IsPersianLetter (ch : rune) : Bool :=
  decide (ch ≥ 0x600) && decide (ch ≤ 0x6FF)

/-- Go `unicode.IsSpace`: the Latin-1 spaces `\t \n \v \f \r`, space, U+0085,
U+00A0, and beyond Latin-1 the code points of the `White_Space` property. -/
def IsSpace (r : rune) : Bool :=
  decide (0x09 ≤ r ∧ r ≤ 0x0D) || r == 0x20 || r == 0x85 || r == 0xA0 ||
  r == 0x1680 || decide (0x2000 ≤ r ∧ r ≤ 0x200A) || r == 0x2028 || r == 0x2029 ||
  r == 0x202F || r == 0x205F || r == 0x3000

/-- Check that the input holds letters of the script and spaces only
(main.go, `IsPersian`): the loop clears the flag at every rune that is neither
a space nor a letter of the script. -/
def IsPersian (input : GoString) : Bool :=
  input.foldl (fun isPersian v =>
    if !IsSpace v && !IsPersianLetter v then false else isPersian) true

/-- Adjust the letter depending on its position (main.go, `adjustLetter`). -/
def adjustLetter (g : letterGroup) : rune :=
  if g.backLetter > 0 ∧ g.frontLetter > 0 then
    if isNoneLeftJoiningLetter g.backLetter then (shapeOf g.letter).Initial
    else (shapeOf g.letter).Medial
  else if g.backLetter = 0 ∧ g.frontLetter > 0 then
    (shapeOf g.letter).Initial
  else if g.backLetter > 0 ∧ g.frontLetter = 0 then
    if isNoneLeftJoiningLetter g.backLetter then (shapeOf g.letter).Isolated
    else (shapeOf g.letter).Final
  else
    (shapeOf g.letter).Isolated

/-- A Go index expression `xs[i]`: `none` (a run-time panic) when `i` is
negative or not below the length. -/
def index {α : Type} (xs : List α) (i : Int) : Option α :=
  if 0 ≤ i then xs[i.toNat]? else none

/-- The parallel assignment `xs[i], xs[j] = xs[j], xs[i]`: both elements are
read, then both are written. -/
def swap {α : Type} (xs : List α) (i j : Int) : Option (List α) :=
  (index xs i).bind fun a =>
  (index xs j).bind fun b =>
  some ((xs.set i.toNat b).set j.toNat a)

/-- The loop of `reverse`: `for i, j := 0, len(runes)-1; i < j; i, j = i+1, j-1`.
The first argument bounds the number of iterations; the result is `none` when
the bound is reached with `i < j` still true (`reverse_eq` shows that the
bound `len(runes)` is never reached). -/
def reverseLoop : Nat → List rune → Int → Int → Option (List rune)
  | 0, runes, i, j => if i < j then none else some runes
  | fuel + 1, runes, i, j =>
    if i < j then
      (swap runes i j).bind fun swapped => reverseLoop fuel swapped (i + 1) (j - 1)
    else some runes

/-- Reverse the string (main.go, `reverse`). -/
def reverse (s : GoString) : Option GoString :=
  reverseLoop s.length s 0 ((s.length : Int) - 1)

/-- The body of the loop of `shapeWord` at index `i`: the rune written to the
buffer. -/
def shapeRune (inputRunes : List rune) (i : Int) : Option rune :=
  (if i - 1 ≥ 0 then index inputRunes (i - 1) else some 0).bind fun backLetter =>
  (if i ≠ (inputRunes.length : Int) - 1 then index inputRunes (i + 1) else some 0).bind
    fun frontLetter =>
  (index inputRunes i).bind fun cur =>
  if (shapeLookup cur).isSome then
    some (adjustLetter ⟨backLetter, cur, frontLetter⟩)
  else
    some cur

/-- Reconstruct a word to be connected correctly (main.go, `shapeWord`). -/
def shapeWord (input : GoString) : Option GoString :=
  if !IsPersian input then some input
  else
    ((List.range input.length).mapM fun (i : Nat) => shapeRune input (i : Int)).bind
      fun shapedInput => reverse shapedInput

/-- Go `strings.TrimSpace`: the string without its leading and trailing
white space. -/
def TrimSpace (s : GoString) : GoString :=
  (s.dropWhile IsSpace).rdropWhile IsSpace

/-- The scan of Go `strings.Fields`: `cur` is the field being read. -/
def fieldsLoop : List rune → GoString → List GoString
  | [], cur => if cur = [] then [] else [cur]
  | c :: rest, cur =>
    if IsSpace c then
      if cur = [] then fieldsLoop rest [] else cur :: fieldsLoop rest []
    else fieldsLoop rest (cur ++ [c])

/-- Go `strings.Fields`: the maximal runs of runes that are not white space. -/
def Fields (s : GoString) : List GoString :=
  fieldsLoop s []

/-- Go `strings.Join`. -/
def Join : List GoString → GoString → GoString
  | [], _ => []
  | [a], _ => a
  | a :: b :: rest, sep => a ++ sep ++ Join (b :: rest) sep

/-- The variables of the first loop of `ReShape`. -/
structure segState where
  langSections : List GoString
  continuousLangFa : GoString
  continuousLangLt : GoString

/-- One iteration of the first loop of `ReShape`. -/
def segStep (st : segState) (letter : rune) : segState :=
  if IsPersianLetter letter then
    { langSections :=
        if st.continuousLangLt.length > 0 then
          st.langSections ++ [TrimSpace st.continuousLangLt]
        else st.langSections
      continuousLangLt := []
      continuousLangFa := st.continuousLangFa ++ [letter] }
  else
    { langSections :=
        if st.continuousLangFa.length > 0 then
          st.langSections ++ [TrimSpace st.continuousLangFa]
        else st.langSections
      continuousLangFa := []
      continuousLangLt := st.continuousLangLt ++ [letter] }

/-- The two conditionals after the first loop of `ReShape`. -/
def segFlush (st : segState) : List GoString :=
  let afterLt :=
    if st.continuousLangLt.length > 0 then
      st.langSections ++ [TrimSpace st.continuousLangLt]
    else st.langSections
  if st.continuousLangFa.length > 0 then
    afterLt ++ [TrimSpace st.continuousLangFa]
  else afterLt

/-- The value of `langSections` when the second loop of `ReShape` starts. -/
def langSectionsOf (input : GoString) : List GoString :=
  segFlush (input.foldl segStep ⟨[], [], []⟩)

/-- One iteration of the second loop of `ReShape`. -/
def shapeSection (shapedSentence : List GoString) (sec : GoString) :
    Option (List GoString) :=
  if IsPersian sec then
    (Fields sec).foldlM
      (fun acc word => (shapeWord word).bind fun shaped => some (acc ++ [shaped]))
      shapedSentence
  else some (shapedSentence ++ [sec])

/-- The loop `for i := len(shapedSentence)/2 - 1; i >= 0; i--` of `ReShape`;
the first argument is `i + 1`. -/
def reverseWordsLoop : Nat → List GoString → Option (List GoString)
  | 0, shapedSentence => some shapedSentence
  | i + 1, shapedSentence =>
    (swap shapedSentence (i : Int) ((shapedSentence.length : Int) - 1 - (i : Int))).bind
      fun swapped => reverseWordsLoop i swapped

/-- Reconstruct a text to be connected correctly (main.go, `ReShape`). -/
def ReShape (input : GoString) : Option GoString :=
  ((langSectionsOf input).foldlM shapeSection []).bind fun shapedSentence =>
  (reverseWordsLoop (shapedSentence.length / 2) shapedSentence).bind fun reversed =>
  some (Join reversed [0x20])

/-- The runes of a string literal (`[]rune(s)`). -/
def runes (s : String) : GoString :=
  s.toList.map (fun c => (c.toNat : Int))

/-- The remainder of `s` after `old`, when `s` starts with `old`. -/
def cutOld : GoString → GoString → Option GoString
  | [], s => some s
  | _ :: _, [] => none
  | o :: old, c :: s => if o = c then cutOld old s else none

/-- Go `strings.NewReplacer(oldnew...).Replace(s)` for old strings that are
not empty: the string is read from left to right; at a position where an old
string starts, the first such pair in argument order is taken, its new string
is written and the old string is passed over (the first argument counts the
characters still to pass over); any other character is copied. -/
def replaceLoop (oldnew : List (GoString × GoString)) : Nat → GoString → GoString
  | _, [] => []
  | skip + 1, _ :: rest => replaceLoop oldnew skip rest
  | 0, c :: rest =>
    match oldnew.find? (fun p => (cutOld p.1 (c :: rest)).isSome) with
    | some p => p.2 ++ replaceLoop oldnew (p.1.length - 1) rest
    | none => c :: replaceLoop oldnew 0 rest

/-- Go `(*strings.Replacer).Replace`. -/
def Replace (oldnew : List (GoString × GoString)) (s : GoString) : GoString :=
  replaceLoop oldnew 0 s

/-- Convert english numbers to persian numbers in text
(main.go, `ToPersianDigits`). -/
def ToPersianDigits (input : GoString) : GoString :=
  Replace [
    (runes "0", runes "۰"),
    (runes "1", runes "۱"),
    (runes "2", runes "۲"),
    (runes "3", runes "۳"),
    (runes "4", runes "۴"),
    (runes "5", runes "۵"),
    (runes "6", runes "۶"),
    (runes "7", runes "۷"),
    (runes "8", runes "۸"),
    (runes "9", runes "۹")] input

/-- Convert persian numbers to english numbers in text
(main.go, `ToEnglishDigits`). -/
def ToEnglishDigits (input : GoString) : GoString :=
  Replace [
    (runes "۰", runes "0"),
    (runes "۱", runes "1"),
    (runes "۲", runes "2"),
    (runes "۳", runes "3"),
    (runes "۴", runes "4"),
    (runes "۵", runes "5"),
    (runes "۶", runes "6"),
    (runes "۷", runes "7"),
    (runes "۸", runes "8"),
    (runes "۹", runes "9")] input

/-- Go `string`, as its bytes. -/
abbrev GoBytes := List Nat

/-- Go `utf8.RuneError`, the rune that stands for a byte that is not part of a
valid UTF-8 sequence. -/
def RuneError : rune := 0xFFFD

/-- The least second byte that Go accepts after the first byte `b0` of a
sequence (`acceptRanges` of package `utf8`). -/
def acceptLo (b0 : Nat) : Nat :=
  if b0 = 0xE0 then 0xA0 else if b0 = 0xF0 then 0x90 else 0x80

/-- The greatest second byte that Go accepts after the first byte `b0`. -/
def acceptHi (b0 : Nat) : Nat :=
  if b0 = 0xED then 0x9F else if b0 = 0xF4 then 0x8F else 0xBF

/-- Continuation byte `0x80..0xBF`. -/
def isCont (b : Nat) : Bool :=
  decide (0x80 ≤ b ∧ b ≤ 0xBF)

/-- Go `utf8.DecodeRuneInString` on a string that is not empty, which is what
one step of `for _, letter := range input` and of `[]rune(input)` does: the
rune at the start of the bytes and its width; a byte that does not start a
valid sequence gives `RuneError` and width 1. -/
def decodeRune (s : GoBytes) : rune × Nat :=
  let b0 := s.getD 0 0
  let b1 := s.getD 1 0
  let b2 := s.getD 2 0
  let b3 := s.getD 3 0
  if b0 < 0x80 then ((b0 : Int), 1)
  else if 0xC2 ≤ b0 ∧ b0 ≤ 0xDF ∧ 2 ≤ s.length ∧ isCont b1 = true then
    (((b0 % 32 * 64 + b1 % 64 : Nat) : Int), 2)
  else if 0xE0 ≤ b0 ∧ b0 ≤ 0xEF ∧ 3 ≤ s.length ∧ acceptLo b0 ≤ b1 ∧ b1 ≤ acceptHi b0 ∧
      isCont b2 = true then
    (((b0 % 16 * 4096 + b1 % 64 * 64 + b2 % 64 : Nat) : Int), 3)
  else if 0xF0 ≤ b0 ∧ b0 ≤ 0xF4 ∧ 4 ≤ s.length ∧ acceptLo b0 ≤ b1 ∧ b1 ≤ acceptHi b0 ∧
      isCont b2 = true ∧ isCont b3 = true then
    (((b0 % 8 * 262144 + b1 % 64 * 4096 + b2 % 64 * 64 + b3 % 64 : Nat) : Int), 4)
  else (RuneError, 1)

/-- The runes of a Go string, read from left to right; the first argument
counts the bytes of the current sequence that are still to be passed over. -/
def decodeLoop : Nat → GoBytes → GoString
  | _, [] => []
  | skip + 1, _ :: rest => decodeLoop skip rest
  | 0, b :: rest => (decodeRune (b :: rest)).1 :: decodeLoop ((decodeRune (b :: rest)).2 - 1) rest

/-- The runes that `range s` and `[]rune(s)` produce for the Go string `s`. -/
def decodeRunes (s : GoBytes) : GoString :=
  decodeLoop 0 s

/-- Go `string(r)` for a rune `r` (also `WriteRune`): the UTF-8 encoding of
`r`, and the encoding of `RuneError` for a value that is not a Unicode scalar
value. -/
def encodeRune (r : rune) : GoBytes :=
  if r < 0 ∨ 0x10FFFF < r ∨ (0xD800 ≤ r ∧ r ≤ 0xDFFF) then [0xEF, 0xBF, 0xBD]
  else if r < 0x80 then [r.toNat]
  else if r < 0x800 then [0xC0 + r.toNat / 64, 0x80 + r.toNat % 64]
  else if r < 0x10000 then
    [0xE0 + r.toNat / 4096, 0x80 + r.toNat / 64 % 64, 0x80 + r.toNat % 64]
  else
    [0xF0 + r.toNat / 262144, 0x80 + r.toNat / 4096 % 64, 0x80 + r.toNat / 64 % 64,
      0x80 + r.toNat % 64]

/-- The Go string built from a sequence of runes with `string(r)` and `+=`
(also `string(runes)`). -/
def encodeRunes (s : GoString) : GoBytes :=
  s.flatMap encodeRune

/-- `ReShape` on a Go string given by its bytes. `range input`
(main.go line 97) decodes the bytes; every string that `ReShape` handles after
that is built from runes (`string(letter)` at lines 103 and 109,
`WriteRune`, `string(runes)`, `Join`), so it is the encoding of its rune
sequence, and the functions of `ReShape` act on that sequence; the string
returned is the encoding of the result. -/
def ReShapeString (input : GoBytes) : Option GoBytes :=
  (ReShape (decodeRunes input)).map encodeRunes

/-- `shapeWord` on a Go string given by its bytes: a word that is not script
text is returned as it is (main.go line 141), any other word is decoded
(`[]rune(input)`), shaped, and written back rune by rune. -/
def shapeWordString (input : GoBytes) : Option GoBytes :=
  if !IsPersian (decodeRunes input) then some input
  else (shapeWord (decodeRunes input)).map encodeRunes

/-! ## Definitions that follow the specification -/

/-- The Position Resolution Rule of the specification, with neighbours that
are explicitly optional. -/
def positionRule (precedingLetter followingLetter : Option rune) (s : letterShape) : rune :=
  match precedingLetter, followingLetter with
  | some p, some _ => if p ∈ nonLeftJoiningLetters then s.Initial else s.Medial
  | none, some _ => s.Initial
  | some p, none => if p ∈ nonLeftJoiningLetters then s.Isolated else s.Final
  | none, none => s.Isolated

/-- The character the specification emits at position `i` of the word `w`,
where `c` is the character at that position. -/
def refShapeAt (w : GoString) (i : Nat) (c : rune) : rune :=
  match shapeLookup c with
  | some s =>
    positionRule (if i = 0 then none else w[i - 1]?)
      (if i + 1 = w.length then none else w[i + 1]?) s
  | none => c

/-- The word shaper of the specification. -/
def refShapeWord (w : GoString) : GoString :=
  if IsPersian w then (w.mapIdx (refShapeAt w)).reverse else w

/-- The output units of one section, with the word shaper of the
specification: a section of letters and spaces gives its shaped words, any
other section gives itself. -/
def unitsOf (sec : GoString) : List GoString :=
  if IsPersian sec then (Fields sec).map refShapeWord else [sec]

/-- The inverse of the shape table, built from the forward table as the
specification describes: a glyph that is one of the four forms of an entry is
mapped to the key of the first such entry, any other character to itself. -/
def baseLetterOf (g : rune) : rune :=
  match persianAlphabetShapes.find? (fun e =>
      g == e.2.Isolated || g == e.2.Initial || g == e.2.Medial || g == e.2.Final) with
  | some e => e.1
  | none => g

/-- The four forms of a table entry. -/
def formsOf (s : letterShape) : List rune :=
  [s.Isolated, s.Initial, s.Medial, s.Final]

/-- Valid UTF-8 (Go `utf8.ValidString`): the string is the encoding of the
runes that `range` reads from it; a byte that is not part of a valid sequence
is read as `RuneError`, whose encoding has three bytes. -/
def ValidString (s : GoBytes) : Bool :=
  encodeRunes (decodeRunes s) == s

/-- Unicode scalar value: a rune that has a UTF-8 encoding of its own. -/
def isScalarValue (r : rune) : Bool :=
  decide (0 ≤ r ∧ r ≤ 0x10FFFF ∧ ¬ (0xD800 ≤ r ∧ r ≤ 0xDFFF))

/-! ## Lemmas -/

theorem index_natCast {α : Type} (xs : List α) (n : Nat) : index xs (n : Int) = xs[n]? := by
  simp [index]

theorem getElem?_middle {α : Type} (p m q : List α) (b : α) :
    (p ++ (m ++ b :: q))[p.length + m.length]? = some b := by
  rw [List.getElem?_append_right (by omega)]
  rw [List.getElem?_append_right (by omega)]
  have h : p.length + m.length - p.length - m.length = 0 := by omega
  rw [h]; simp

theorem set_middle {α : Type} (p m q : List α) (b c : α) :
    (p ++ (m ++ b :: q)).set (p.length + m.length) c = p ++ (m ++ c :: q) := by
  rw [List.set_append, if_neg (by omega), List.set_append, if_neg (by omega)]
  have h : p.length + m.length - p.length - m.length = 0 := by omega
  rw [h]; rfl

theorem swap_middle {α : Type} (p m q : List α) (a b : α) (i j : Int)
    (hi : i = (p.length : Int)) (hj : j = (p.length : Int) + 1 + (m.length : Int)) :
    swap (p ++ a :: (m ++ b :: q)) i j = some (p ++ b :: (m ++ a :: q)) := by
  subst hi hj
  have e : ((p.length : Int) + 1 + (m.length : Int)) = ((p.length + (m.length + 1) : Nat) : Int) := by
    push_cast; ring
  rw [e]
  have h1 : (p ++ a :: (m ++ b :: q))[p.length]? = some a := by
    simpa using getElem?_middle p [] (m ++ b :: q) a
  have h2 : (p ++ a :: (m ++ b :: q))[p.length + (m.length + 1)]? = some b := by
    simpa using getElem?_middle p (a :: m) q b
  have h3 : (p ++ a :: (m ++ b :: q)).set p.length b = p ++ b :: (m ++ b :: q) := by
    simp
  have h4 : (p ++ b :: (m ++ b :: q)).set (p.length + (m.length + 1)) a
      = p ++ b :: (m ++ a :: q) := by
    simp
  simp only [swap, index_natCast, Int.toNat_ofNat, h1, h2, h3, h4, Option.bind]

theorem reverseLoop_middle (fuel : Nat) : ∀ (m p q : List rune) (i j : Int),
    m.length ≤ 2 * fuel + 1 → i = (p.length : Int) →
    j = (p.length : Int) + (m.length : Int) - 1 →
    reverseLoop fuel (p ++ (m ++ q)) i j = some (p ++ (m.reverse ++ q)) := by
  induction fuel with
  | zero =>
    intro m p q i j hm hi hj
    have hij : ¬ i < j := by omega
    match m, hm with
    | [], _ => simp [reverseLoop, hij]
    | [a], _ => simp [reverseLoop, hij]
  | succ fuel ih =>
    intro m p q i j hm hi hj
    match m, hm, hj with
    | [], _, hj =>
      have hij : ¬ i < j := by simp at hj; omega
      simp [reverseLoop, hij]
    | [a], _, hj =>
      have hij : ¬ i < j := by simp at hj; omega
      simp [reverseLoop, hij]
    | a :: c :: rest, hm, hj =>
      obtain ⟨mid, b, hb⟩ : ∃ mid b, c :: rest = mid ++ [b] := by
        rcases List.eq_nil_or_concat (c :: rest) with h | ⟨L, b, h⟩
        · simp at h
        · exact ⟨L, b, by simpa using h⟩
      have hlen : (c :: rest).length = mid.length + 1 := by rw [hb]; simp
      simp only [List.length_cons] at hm hj hlen
      have hij : i < j := by omega
      rw [hb]
      have hs : swap (p ++ (a :: (mid ++ [b]) ++ q)) i j
          = some (p ++ b :: (mid ++ a :: q)) := by
        have := swap_middle p mid q a b i j hi (by omega)
        simpa using this
      simp only [reverseLoop, hij, if_true, hs, Option.bind]
      have := ih mid (p ++ [b]) (a :: q) (i + 1) (j - 1) (by omega)
        (by simp; omega) (by simp; omega)
      simpa using this

theorem reverse_eq (s : GoString) : reverse s = some s.reverse := by
  have := reverseLoop_middle s.length s [] [] 0 ((s.length : Int) - 1)
    (by omega) (by simp) (by simp)
  simpa [reverse] using this

theorem reverseWordsLoop_middle (k : Nat) : ∀ (p m q : List GoString),
    p.length = k → q.length = k →
    reverseWordsLoop k (p ++ (m ++ q)) = some (q.reverse ++ (m ++ p.reverse)) := by
  induction k with
  | zero =>
    intro p m q hp hq
    have hp0 : p = [] := List.length_eq_zero.mp hp
    have hq0 : q = [] := List.length_eq_zero.mp hq
    subst hp0 hq0
    simp [reverseWordsLoop]
  | succ k ih =>
    intro p m q hp hq
    obtain ⟨front, a, hfront⟩ : ∃ front a, p = front ++ [a] := by
      rcases List.eq_nil_or_concat p with h | ⟨L, b, h⟩
      · subst h; simp at hp
      · exact ⟨L, b, by simpa using h⟩
    match q, hq with
    | b :: back, hq =>
      subst hfront
      simp only [List.length_append, List.length_cons, List.length_nil] at hp hq
      have hs : swap (front ++ [a] ++ (m ++ b :: back)) (k : Int)
          (((front ++ [a] ++ (m ++ b :: back)).length : Int) - 1 - (k : Int))
          = some (front ++ b :: (m ++ a :: back)) := by
        have := swap_middle front m back a b (k : Int)
          (((front ++ [a] ++ (m ++ b :: back)).length : Int) - 1 - (k : Int))
          (by omega) (by simp; omega)
        simpa using this
      simp only [reverseWordsLoop, hs, Option.bind]
      have := ih front (b :: (m ++ [a])) back (by omega) (by omega)
      simpa using this

theorem reverseWordsLoop_eq (l : List GoString) :
    reverseWordsLoop (l.length / 2) l = some l.reverse := by
  have hk : l.length / 2 ≤ l.length - l.length / 2 := by omega
  have hsplit : l = l.take (l.length / 2)
      ++ ((l.drop (l.length / 2)).take (l.length - 2 * (l.length / 2))
      ++ l.drop (l.length - l.length / 2)) := by
    have h1 : l.drop (l.length - l.length / 2)
        = (l.drop (l.length / 2)).drop (l.length - 2 * (l.length / 2)) := by
      rw [List.drop_drop]; congr 1; omega
    rw [h1, List.take_append_drop, List.take_append_drop]
  have hm : ((l.drop (l.length / 2)).take (l.length - 2 * (l.length / 2))).length ≤ 1 := by
    simp; omega
  have hmrev : ∀ m : List GoString, m.length ≤ 1 → m.reverse = m := by
    intro m h
    match m, h with
    | [], _ => rfl
    | [_], _ => rfl
  have := reverseWordsLoop_middle (l.length / 2) (l.take (l.length / 2))
    ((l.drop (l.length / 2)).take (l.length - 2 * (l.length / 2)))
    (l.drop (l.length - l.length / 2)) (by simp; omega) (by simp; omega)
  rw [← hsplit] at this
  rw [this]
  congr 1
  conv_rhs => rw [hsplit]
  simp only [List.reverse_append, List.append_assoc]
  rw [hmrev _ hm]

theorem IsPersian_foldl (l : GoString) (b : Bool) :
    l.foldl (fun isPersian v =>
      if !IsSpace v && !IsPersianLetter v then false else isPersian) b
    = (b && l.all (fun v => IsSpace v || IsPersianLetter v)) := by
  induction l generalizing b with
  | nil => simp
  | cons c rest ih =>
    rw [List.foldl_cons, ih]
    cases hs : IsSpace c <;> cases hp : IsPersianLetter c <;> simp [hs, hp]

theorem IsPersian_eq_all (s : GoString) :
    IsPersian s = s.all (fun v => IsSpace v || IsPersianLetter v) := by
  unfold IsPersian
  rw [IsPersian_foldl]
  simp

theorem IsPersian_iff (s : GoString) :
    IsPersian s = true ↔ ∀ c ∈ s, IsSpace c = true ∨ IsPersianLetter c = true := by
  simp [IsPersian_eq_all]

theorem IsSpace_pos (c : rune) (h : IsSpace c = true) : 0 < c := by
  simp only [IsSpace, Bool.or_eq_true, decide_eq_true_eq, beq_iff_eq] at h
  unfold rune at *
  omega

theorem IsPersianLetter_pos (c : rune) (h : IsPersianLetter c = true) : 0 < c := by
  simp only [IsPersianLetter, Bool.and_eq_true, decide_eq_true_eq] at h
  unfold rune at *
  omega

theorem IsSpace_not_letter (c : rune) (h : IsSpace c = true) : IsPersianLetter c = false := by
  simp only [IsSpace, Bool.or_eq_true, decide_eq_true_eq, beq_iff_eq] at h
  simp only [IsPersianLetter, Bool.and_eq_false_iff, decide_eq_false_iff_not]
  unfold rune at *
  omega

theorem IsPersian_pos (s : GoString) (h : IsPersian s = true) : ∀ c ∈ s, 0 < c := by
  intro c hc
  rcases (IsPersian_iff s).mp h c hc with h1 | h1
  · exact IsSpace_pos c h1
  · exact IsPersianLetter_pos c h1

theorem lookup_isSome_iff {β : Type} (l : List (rune × β)) (k : rune) :
    (l.lookup k).isSome = true ↔ k ∈ l.map Prod.fst := by
  induction l with
  | nil => simp
  | cons x rest ih =>
    obtain ⟨a, b⟩ := x
    by_cases h : k = a
    · subst h; simp [List.lookup]
    · have hne : (k == a) = false := by simpa using h
      simp [List.lookup, hne, ih, h]

theorem shapeLookup_isSome_iff (k : rune) :
    (shapeLookup k).isSome = true ↔ k ∈ persianAlphabetShapes.map Prod.fst :=
  lookup_isSome_iff persianAlphabetShapes k

set_option maxRecDepth 8000 in
theorem keys_are_letters :
    ∀ k ∈ persianAlphabetShapes.map Prod.fst, IsPersianLetter k = true := by
  decide

theorem key_isPersianLetter (k : rune) (h : (shapeLookup k).isSome = true) :
    IsPersianLetter k = true :=
  keys_are_letters k ((shapeLookup_isSome_iff k).mp h)

theorem isNoneLeftJoiningLetter_iff (c : rune) :
    isNoneLeftJoiningLetter c = true ↔ c ∈ nonLeftJoiningLetters := by
  unfold isNoneLeftJoiningLetter
  rw [List.any_eq_true]
  constructor
  · rintro ⟨x, hx, he⟩
    have : x = c := by simpa using he
    exact this ▸ hx
  · intro h
    exact ⟨c, h, by simp⟩

theorem adjustLetter_eq_positionRule (c : rune) (pb pf : Option rune)
    (hb : ∀ b, pb = some b → 0 < b) (hf : ∀ f, pf = some f → 0 < f) :
    adjustLetter ⟨pb.getD 0, c, pf.getD 0⟩ = positionRule pb pf (shapeOf c) := by
  cases pb with
  | none =>
    cases pf with
    | none => simp [adjustLetter, positionRule]
    | some f =>
      have := hf f rfl
      simp [adjustLetter, positionRule, this]
  | some b =>
    have hb0 := hb b rfl
    have hbne : b ≠ 0 := by unfold rune at *; omega
    cases pf with
    | none =>
      simp only [adjustLetter, positionRule, Option.getD_some, Option.getD_none, hb0, hbne,
        lt_self_iff_false, and_false, false_and, if_false, gt_iff_lt, true_and, if_true]
      by_cases hn : b ∈ nonLeftJoiningLetters
      · simp [hn, (isNoneLeftJoiningLetter_iff b).mpr hn]
      · have : isNoneLeftJoiningLetter b = false := by
          rw [← Bool.not_eq_true, isNoneLeftJoiningLetter_iff]; exact hn
        simp [hn, this]
    | some f =>
      have hf0 := hf f rfl
      simp only [adjustLetter, positionRule, Option.getD_some, hb0, hf0, and_self, if_true,
        gt_iff_lt]
      by_cases hn : b ∈ nonLeftJoiningLetters
      · simp [hn, (isNoneLeftJoiningLetter_iff b).mpr hn]
      · have : isNoneLeftJoiningLetter b = false := by
          rw [← Bool.not_eq_true, isNoneLeftJoiningLetter_iff]; exact hn
        simp [hn, this]

theorem mapM_eq_some_map {α β : Type} (f : α → Option β) (g : α → β) (l : List α)
    (h : ∀ x ∈ l, f x = some (g x)) : l.mapM f = some (l.map g) := by
  induction l with
  | nil => rfl
  | cons a rest ih =>
    have ha := h a (List.mem_cons_self a rest)
    have hrest := ih (fun x hx => h x (List.mem_cons_of_mem a hx))
    rw [List.mapM_cons, ha, hrest]
    rfl

theorem shapeOf_of_lookup (c : rune) (s : letterShape) (h : shapeLookup c = some s) :
    shapeOf c = s := by
  simp [shapeOf, h]

theorem shapeRune_eq (w : GoString) (hw : ∀ c ∈ w, 0 < c) (i : Nat) (hi : i < w.length) :
    shapeRune w (i : Int) = some (refShapeAt w i w[i]) := by
  have hback : (if (i : Int) - 1 ≥ 0 then index w ((i : Int) - 1) else some 0)
      = some ((if i = 0 then none else w[i - 1]?).getD 0) := by
    cases i with
    | zero => simp
    | succ k =>
      have hk : k < w.length := by omega
      have e : ((k + 1 : Nat) : Int) - 1 = (k : Int) := by push_cast; ring
      have hge : ((k + 1 : Nat) : Int) - 1 ≥ 0 := by omega
      rw [if_pos hge, e, index_natCast]
      simp [List.getElem?_eq_getElem hk]
  have hfront : (if (i : Int) ≠ (w.length : Int) - 1 then index w ((i : Int) + 1) else some 0)
      = some ((if i + 1 = w.length then none else w[i + 1]?).getD 0) := by
    by_cases hlast : i + 1 = w.length
    · have : (i : Int) = (w.length : Int) - 1 := by omega
      simp [this, hlast]
    · have hne : (i : Int) ≠ (w.length : Int) - 1 := by omega
      have hlt : i + 1 < w.length := by omega
      have e : (i : Int) + 1 = ((i + 1 : Nat) : Int) := by push_cast; ring
      rw [if_pos hne, e, index_natCast]
      simp [hlast, List.getElem?_eq_getElem hlt]
  have hcur : index w (i : Int) = some w[i] := by
    rw [index_natCast, List.getElem?_eq_getElem hi]
  have hpb : ∀ b, (if i = 0 then none else w[i - 1]?) = some b → 0 < b := by
    intro b hb
    by_cases h0 : i = 0
    · simp [h0] at hb
    · rw [if_neg h0] at hb
      exact hw b (List.getElem?_mem hb)
  have hpf : ∀ f, (if i + 1 = w.length then none else w[i + 1]?) = some f → 0 < f := by
    intro f hf
    by_cases h0 : i + 1 = w.length
    · simp [h0] at hf
    · rw [if_neg h0] at hf
      exact hw f (List.getElem?_mem hf)
  unfold shapeRune
  rw [hback, hfront, hcur]
  simp only [Option.bind]
  cases hl : shapeLookup w[i] with
  | none => simp [refShapeAt, hl]
  | some s =>
    simp only [Option.isSome_some, if_true, refShapeAt, hl]
    rw [adjustLetter_eq_positionRule w[i] _ _ hpb hpf, shapeOf_of_lookup _ _ hl]

theorem range_map_getElem (w : GoString) (f : Nat → rune → rune) :
    (List.range w.length).map (fun i => f i (w.getD i 0)) = w.mapIdx f := by
  apply List.ext_getElem
  · simp
  · intro n h1 h2
    have hn : n < w.length := by simpa using h1
    simp [List.getD, List.getElem?_eq_getElem hn]

theorem shapeWord_eq (w : GoString) : shapeWord w = some (refShapeWord w) := by
  unfold shapeWord refShapeWord
  cases hp : IsPersian w with
  | false => simp
  | true =>
    have hw := IsPersian_pos w hp
    have hm : (List.range w.length).mapM (fun (i : Nat) => shapeRune w (i : Int))
        = some ((List.range w.length).map (fun i => refShapeAt w i (w.getD i 0))) := by
      apply mapM_eq_some_map
      intro i hi
      have hi2 : i < w.length := List.mem_range.mp hi
      rw [shapeRune_eq w hw i hi2]
      simp [List.getD, List.getElem?_eq_getElem hi2]
    rw [hm, range_map_getElem]
    simp [Option.bind, reverse_eq]

theorem shapeWords_foldlM (words : List GoString) (acc : List GoString) :
    words.foldlM
      (fun acc word => (shapeWord word).bind fun shaped => some (acc ++ [shaped])) acc
    = some (acc ++ words.map refShapeWord) := by
  induction words generalizing acc with
  | nil => simp
  | cons w rest ih =>
    rw [List.foldlM_cons, shapeWord_eq]
    simp only [Option.bind_eq_bind, Option.some_bind]
    rw [ih]
    simp

theorem shapeSection_eq (acc : List GoString) (sec : GoString) :
    shapeSection acc sec = some (acc ++ unitsOf sec) := by
  unfold shapeSection unitsOf
  cases hp : IsPersian sec with
  | false => simp
  | true => simp [shapeWords_foldlM]

theorem shapeSections_foldlM (secs : List GoString) (acc : List GoString) :
    secs.foldlM shapeSection acc = some (acc ++ secs.flatMap unitsOf) := by
  induction secs generalizing acc with
  | nil => simp
  | cons s rest ih =>
    rw [List.foldlM_cons, shapeSection_eq]
    simp only [Option.bind_eq_bind, Option.some_bind]
    rw [ih]
    simp

theorem ReShape_eq (input : GoString) :
    ReShape input
      = some (Join ((langSectionsOf input).flatMap unitsOf).reverse [0x20]) := by
  unfold ReShape
  rw [shapeSections_foldlM]
  simp only [List.nil_append, Option.some_bind, Option.bind]
  rw [reverseWordsLoop_eq]

theorem TrimSpace_of_spaces (s : GoString) (h : ∀ c ∈ s, IsSpace c = true) :
    TrimSpace s = [] := by
  have : s.dropWhile IsSpace = [] := List.dropWhile_eq_nil_iff.mpr h
  simp [TrimSpace, this]

theorem mem_dropWhile_of_not {α : Type} (p : α → Bool) (c : α) (hc : p c = false) :
    ∀ l : List α, c ∈ l → c ∈ l.dropWhile p := by
  intro l
  induction l with
  | nil => intro h; exact h
  | cons x rest ih =>
    intro h
    cases hx : p x with
    | false =>
      rw [List.dropWhile_cons_of_neg (by simp [hx])]
      exact h
    | true =>
      rw [List.dropWhile_cons_of_pos hx]
      rcases List.mem_cons.mp h with h1 | h1
      · rw [h1, hx] at hc; exact absurd hc (by simp)
      · exact ih h1

theorem mem_rdropWhile_of_not {α : Type} (p : α → Bool) (c : α) (hc : p c = false)
    (l : List α) (h : c ∈ l) : c ∈ l.rdropWhile p := by
  have h1 : c ∈ l.reverse := List.mem_reverse.mpr h
  have h2 := mem_dropWhile_of_not p c hc l.reverse h1
  simpa [List.rdropWhile] using h2

theorem mem_TrimSpace (s : GoString) (c : rune) (hc : c ∈ s) (hs : IsSpace c = false) :
    c ∈ TrimSpace s :=
  mem_rdropWhile_of_not IsSpace c hs _ (mem_dropWhile_of_not IsSpace c hs s hc)

theorem mem_of_mem_TrimSpace (s : GoString) (c : rune) (hc : c ∈ TrimSpace s) : c ∈ s := by
  unfold TrimSpace List.rdropWhile at hc
  have h1 := List.dropWhile_subset IsSpace (List.mem_reverse.mp hc)
  exact List.dropWhile_subset IsSpace (List.mem_reverse.mp h1)

theorem rdropWhile_cons_of_not {α : Type} (p : α → Bool) (h : α) (hh : p h = false)
    (t : List α) : ∃ u, (h :: t).rdropWhile p = h :: u := by
  induction t using List.reverseRecOn with
  | nil => exact ⟨[], by simp [List.rdropWhile, hh]⟩
  | append_singleton l x ih =>
    cases hx : p x with
    | true =>
      have := List.rdropWhile_concat_pos p (h :: l) x hx
      rw [List.cons_append] at this
      rw [this]; exact ih
    | false =>
      have := List.rdropWhile_concat_neg p (h :: l) x (by simp [hx])
      rw [List.cons_append] at this
      rw [this]; exact ⟨l ++ [x], rfl⟩

theorem dropWhile_head_not {α : Type} (p : α → Bool) (l : List α) :
    l.dropWhile p = [] ∨ ∃ h t, l.dropWhile p = h :: t ∧ p h = false := by
  induction l with
  | nil => left; rfl
  | cons x rest ih =>
    cases hx : p x with
    | false =>
      right
      exact ⟨x, rest, List.dropWhile_cons_of_neg (by simp [hx]), hx⟩
    | true =>
      rw [List.dropWhile_cons_of_pos hx]; exact ih

theorem TrimSpace_head (s : GoString) :
    TrimSpace s = [] ∨ ∃ h t, TrimSpace s = h :: t ∧ IsSpace h = false := by
  unfold TrimSpace
  rcases dropWhile_head_not IsSpace s with h0 | ⟨h, t, he, hh⟩
  · left; rw [h0]; simp
  · right
    rw [he]
    obtain ⟨u, hu⟩ := rdropWhile_cons_of_not IsSpace h hh t
    exact ⟨h, u, hu, hh⟩

theorem TrimSpace_eq_self (s : GoString)
    (hfirst : ∀ c, s.head? = some c → IsSpace c = false)
    (hlast : ∀ c, s.getLast? = some c → IsSpace c = false) : TrimSpace s = s := by
  unfold TrimSpace
  match s, hfirst, hlast with
  | [], _, _ => simp
  | x :: rest, hfirst, hlast =>
    have hx : IsSpace x = false := hfirst x rfl
    rw [List.dropWhile_cons_of_neg (by simp [hx])]
    rcases List.eq_nil_or_concat (x :: rest) with h | ⟨L, b, h⟩
    · simp at h
    · rw [List.concat_eq_append] at h
      rw [h]
      have hb : IsSpace b = false := by
        apply hlast b
        rw [h]; simp
      exact List.rdropWhile_concat_neg IsSpace L b (by simp [hb])

theorem TrimSpace_of_no_space (s : GoString) (h : ∀ c ∈ s, IsSpace c = false) :
    TrimSpace s = s := by
  apply TrimSpace_eq_self
  · intro c hc
    exact h c (List.mem_of_mem_head? hc)
  · intro c hc
    exact h c (List.mem_of_mem_getLast? hc)

theorem fieldsLoop_no_space (w : GoString) (h : ∀ c ∈ w, IsSpace c = false) :
    ∀ cur : GoString, fieldsLoop w cur = if cur ++ w = [] then [] else [cur ++ w] := by
  induction w with
  | nil => intro cur; simp [fieldsLoop]
  | cons c rest ih =>
    intro cur
    have hc : IsSpace c = false := h c (List.mem_cons_self c rest)
    have ih2 := ih (fun x hx => h x (List.mem_cons_of_mem c hx)) (cur ++ [c])
    simp only [fieldsLoop, hc, Bool.false_eq_true, if_false]
    rw [ih2]
    simp

theorem Fields_nil : Fields [] = [] := rfl

theorem Fields_word (w : GoString) (hne : w ≠ []) (h : ∀ c ∈ w, IsSpace c = false) :
    Fields w = [w] := by
  unfold Fields
  rw [fieldsLoop_no_space w h []]
  simp [hne]

theorem unitsOf_nil : unitsOf [] = [] := rfl

theorem letters_no_space (w : GoString) (h : ∀ c ∈ w, IsPersianLetter c = true) :
    ∀ c ∈ w, IsSpace c = false := by
  intro c hc
  cases hs : IsSpace c with
  | false => rfl
  | true =>
    have := IsSpace_not_letter c hs
    rw [h c hc] at this
    exact absurd this (by simp)

theorem IsPersian_of_letters (w : GoString) (h : ∀ c ∈ w, IsPersianLetter c = true) :
    IsPersian w = true :=
  (IsPersian_iff w).mpr (fun c hc => Or.inr (h c hc))

theorem unitsOf_word (w : GoString) (hne : w ≠ [])
    (h : ∀ c ∈ w, IsPersianLetter c = true) : unitsOf w = [refShapeWord w] := by
  unfold unitsOf
  rw [IsPersian_of_letters w h, Fields_word w hne (letters_no_space w h)]
  simp

theorem unitsOf_other (sec : GoString) (h : IsPersian sec = false) : unitsOf sec = [sec] := by
  simp [unitsOf, h]

theorem flushLt_units (secs : List GoString) (lt : GoString)
    (hlt : ∀ c ∈ lt, IsSpace c = true) :
    (if lt.length > 0 then secs ++ [TrimSpace lt] else secs).flatMap unitsOf
      = secs.flatMap unitsOf := by
  by_cases h : lt.length > 0
  · rw [if_pos h, TrimSpace_of_spaces lt hlt]
    simp [unitsOf_nil]
  · rw [if_neg h]

theorem flushFa_units (secs : List GoString) (fa : GoString)
    (hfa : ∀ c ∈ fa, IsPersianLetter c = true) :
    (if fa.length > 0 then secs ++ [TrimSpace fa] else secs).flatMap unitsOf
      = secs.flatMap unitsOf ++ (if fa = [] then [] else [refShapeWord fa]) := by
  by_cases h : fa.length > 0
  · have hne : fa ≠ [] := List.length_pos.mp h
    rw [if_pos h, if_neg hne, TrimSpace_of_no_space fa (letters_no_space fa hfa)]
    simp [unitsOf_word fa hne hfa]
  · have he : fa = [] := by
      cases fa with
      | nil => rfl
      | cons x t => simp at h
    subst he
    simp

theorem segmentation_script (rest : GoString) : ∀ (secs : List GoString) (fa lt : GoString),
    (∀ c ∈ rest, IsSpace c = true ∨ IsPersianLetter c = true) →
    (∀ c ∈ lt, IsSpace c = true) → (∀ c ∈ fa, IsPersianLetter c = true) →
    (segFlush (rest.foldl segStep ⟨secs, fa, lt⟩)).flatMap unitsOf
      = secs.flatMap unitsOf ++ (fieldsLoop rest fa).map refShapeWord := by
  induction rest with
  | nil =>
    intro secs fa lt _ hlt hfa
    simp only [List.foldl_nil, segFlush, fieldsLoop]
    rw [flushFa_units _ fa hfa, flushLt_units secs lt hlt]
    by_cases h : fa = [] <;> simp [h]
  | cons c rest ih =>
    intro secs fa lt hrest hlt hfa
    have hrest2 : ∀ x ∈ rest, IsSpace x = true ∨ IsPersianLetter x = true :=
      fun x hx => hrest x (List.mem_cons_of_mem c hx)
    rw [List.foldl_cons]
    cases hp : IsPersianLetter c with
    | true =>
      have hs : IsSpace c = false := by
        cases hs : IsSpace c with
        | false => rfl
        | true =>
          have := IsSpace_not_letter c hs
          rw [hp] at this
          exact absurd this (by simp)
      have hfa2 : ∀ x ∈ fa ++ [c], IsPersianLetter x = true := by
        intro x hx
        rcases List.mem_append.mp hx with h1 | h1
        · exact hfa x h1
        · rw [List.mem_singleton.mp h1]; exact hp
      simp only [segStep, hp, if_true]
      rw [ih _ (fa ++ [c]) [] hrest2 (by simp) hfa2, flushLt_units secs lt hlt]
      simp [fieldsLoop, hs]
    | false =>
      have hs : IsSpace c = true := by
        rcases hrest c (List.mem_cons_self c rest) with h1 | h1
        · exact h1
        · rw [hp] at h1; exact absurd h1 (by simp)
      have hlt2 : ∀ x ∈ lt ++ [c], IsSpace x = true := by
        intro x hx
        rcases List.mem_append.mp hx with h1 | h1
        · exact hlt x h1
        · rw [List.mem_singleton.mp h1]; exact hs
      simp only [segStep, hp, Bool.false_eq_true, if_false]
      rw [ih _ [] (lt ++ [c]) hrest2 hlt2 (by simp), flushFa_units secs fa hfa]
      by_cases h : fa = [] <;> simp [fieldsLoop, hs, h]

theorem units_script (input : GoString) (h : IsPersian input = true) :
    (langSectionsOf input).flatMap unitsOf = (Fields input).map refShapeWord := by
  have := segmentation_script input [] [] [] ((IsPersian_iff input).mp h) (by simp) (by simp)
  simpa [langSectionsOf, Fields] using this

theorem foldl_segStep_other (rest : GoString) : ∀ (c : rune) (secs : List GoString)
    (fa lt : GoString), (∀ x ∈ c :: rest, IsPersianLetter x = false) →
    (c :: rest).foldl segStep ⟨secs, fa, lt⟩
      = ⟨if fa.length > 0 then secs ++ [TrimSpace fa] else secs, [], lt ++ c :: rest⟩ := by
  induction rest with
  | nil =>
    intro c secs fa lt h
    have hc := h c (List.mem_cons_self c [])
    simp [segStep, hc]
  | cons d rest ih =>
    intro c secs fa lt h
    have hc := h c (List.mem_cons_self c _)
    rw [List.foldl_cons]
    simp only [segStep, hc, Bool.false_eq_true, if_false]
    rw [ih d _ [] (lt ++ [c]) (fun x hx => h x (List.mem_cons_of_mem c hx))]
    simp

theorem foldl_segStep_letters (rest : GoString) : ∀ (c : rune) (secs : List GoString)
    (fa lt : GoString), (∀ x ∈ c :: rest, IsPersianLetter x = true) →
    (c :: rest).foldl segStep ⟨secs, fa, lt⟩
      = ⟨if lt.length > 0 then secs ++ [TrimSpace lt] else secs, fa ++ c :: rest, []⟩ := by
  induction rest with
  | nil =>
    intro c secs fa lt h
    have hc := h c (List.mem_cons_self c [])
    simp [segStep, hc]
  | cons d rest ih =>
    intro c secs fa lt h
    have hc := h c (List.mem_cons_self c _)
    rw [List.foldl_cons]
    simp only [segStep, hc, if_true]
    rw [ih d _ (fa ++ [c]) [] (fun x hx => h x (List.mem_cons_of_mem c hx))]
    simp

theorem unitsOf_TrimSpace_other (a : GoString) (ha : ∀ c ∈ a, IsPersianLetter c = false) :
    unitsOf (TrimSpace a) = if TrimSpace a = [] then [] else [TrimSpace a] := by
  rcases TrimSpace_head a with h0 | ⟨h, t, he, hh⟩
  · rw [h0]; simp [unitsOf_nil]
  · have hne : TrimSpace a ≠ [] := by rw [he]; simp
    rw [if_neg hne]
    apply unitsOf_other
    have hmem : h ∈ TrimSpace a := by rw [he]; exact List.mem_cons_self h t
    have hnl := ha h (mem_of_mem_TrimSpace a h hmem)
    cases hp : IsPersian (TrimSpace a) with
    | false => rfl
    | true =>
      rcases (IsPersian_iff _).mp hp h hmem with h1 | h1
      · rw [hh] at h1; exact absurd h1 (by simp)
      · rw [hnl] at h1; exact absurd h1 (by simp)

theorem ReShape_no_letters (s : GoString) (h : ∀ c ∈ s, IsPersianLetter c = false) :
    ReShape s = some (TrimSpace s) := by
  rw [ReShape_eq]
  match s, h with
  | [], _ => rfl
  | c :: rest, h =>
    have hseg : langSectionsOf (c :: rest) = [TrimSpace (c :: rest)] := by
      unfold langSectionsOf
      rw [foldl_segStep_other rest c [] [] [] h]
      simp [segFlush]
    rw [hseg]
    simp only [List.flatMap_cons, List.flatMap_nil, List.append_nil]
    rw [unitsOf_TrimSpace_other _ h]
    by_cases h0 : TrimSpace (c :: rest) = []
    · rw [if_pos h0, h0]; rfl
    · rw [if_neg h0]; rfl

theorem key_pos (k : rune) (h : (shapeLookup k).isSome = true) : 0 < k :=
  IsPersianLetter_pos k (key_isPersianLetter k h)

theorem mem_of_lookup {β : Type} (l : List (rune × β)) (k : rune) (v : β)
    (h : l.lookup k = some v) : (k, v) ∈ l := by
  induction l with
  | nil => simp at h
  | cons x rest ih =>
    obtain ⟨a, b⟩ := x
    by_cases hk : k = a
    · subst hk
      simp [List.lookup] at h
      simp [h]
    · have hne : (k == a) = false := by simpa using hk
      simp only [List.lookup, hne] at h
      exact List.mem_cons_of_mem _ (ih h)

set_option maxRecDepth 100000 in
theorem baseLetterOf_forms : ∀ e ∈ persianAlphabetShapes,
    baseLetterOf e.2.Isolated = e.1 ∧ baseLetterOf e.2.Initial = e.1 ∧
    baseLetterOf e.2.Medial = e.1 ∧ baseLetterOf e.2.Final = e.1 := by
  decide

set_option maxRecDepth 100000 in
theorem script_forms_are_keys : ∀ e ∈ persianAlphabetShapes,
    (IsPersianLetter e.2.Isolated = true → e.2.Isolated = e.1) ∧
    (IsPersianLetter e.2.Initial = true → e.2.Initial = e.1) ∧
    (IsPersianLetter e.2.Medial = true → e.2.Medial = e.1) ∧
    (IsPersianLetter e.2.Final = true → e.2.Final = e.1) := by
  decide

theorem baseLetterOf_letter (g : rune) (hg : IsPersianLetter g = true) :
    baseLetterOf g = g := by
  unfold baseLetterOf
  cases hf : persianAlphabetShapes.find? (fun e =>
      g == e.2.Isolated || g == e.2.Initial || g == e.2.Medial || g == e.2.Final) with
  | none => rfl
  | some e =>
    have hmem : e ∈ persianAlphabetShapes := List.mem_of_find?_eq_some hf
    have hpred := List.find?_some hf
    obtain ⟨h1, h2, h3, h4⟩ := script_forms_are_keys e hmem
    simp only [Bool.or_eq_true, beq_iff_eq] at hpred
    show e.1 = g
    rcases hpred with ((hp | hp) | hp) | hp
    · rw [hp] at hg; rw [hp]; exact (h1 hg).symm
    · rw [hp] at hg; rw [hp]; exact (h2 hg).symm
    · rw [hp] at hg; rw [hp]; exact (h3 hg).symm
    · rw [hp] at hg; rw [hp]; exact (h4 hg).symm

theorem positionRule_form (pb pf : Option rune) (s : letterShape) :
    positionRule pb pf s = s.Isolated ∨ positionRule pb pf s = s.Initial ∨
    positionRule pb pf s = s.Medial ∨ positionRule pb pf s = s.Final := by
  cases pb with
  | none => cases pf <;> simp [positionRule]
  | some b =>
    cases pf with
    | none =>
      by_cases h : b ∈ nonLeftJoiningLetters <;> simp [positionRule, h]
    | some f =>
      by_cases h : b ∈ nonLeftJoiningLetters <;> simp [positionRule, h]

theorem baseLetterOf_refShapeAt (w : GoString) (i : Nat) (c : rune)
    (hc : IsPersianLetter c = true) : baseLetterOf (refShapeAt w i c) = c := by
  unfold refShapeAt
  cases hl : shapeLookup c with
  | none => exact baseLetterOf_letter c hc
  | some s =>
    have hmem : (c, s) ∈ persianAlphabetShapes := mem_of_lookup _ c s hl
    obtain ⟨h1, h2, h3, h4⟩ := baseLetterOf_forms (c, s) hmem
    simp only
    rcases positionRule_form (if i = 0 then none else w[i - 1]?)
      (if i + 1 = w.length then none else w[i + 1]?) s with h | h | h | h
    · rw [h]; exact h1
    · rw [h]; exact h2
    · rw [h]; exact h3
    · rw [h]; exact h4

theorem unshape_mapIdx (w : GoString) (h : ∀ c ∈ w, IsPersianLetter c = true) :
    (w.mapIdx (refShapeAt w)).map baseLetterOf = w := by
  apply List.ext_getElem
  · simp
  · intro n h1 h2
    simp only [List.getElem_map, List.getElem_mapIdx]
    exact baseLetterOf_refShapeAt w n w[n] (h _ (List.getElem_mem _))

theorem cutOld_single (o c : rune) (rest : GoString) :
    (cutOld [o] (c :: rest)).isSome = decide (o = c) := by
  by_cases h : o = c <;> simp [cutOld, h]

theorem replaceLoop_single (oldnew : List (GoString × GoString))
    (h : ∀ p ∈ oldnew, p.1.length = 1) (c : rune) (rest : GoString) :
    replaceLoop oldnew 0 (c :: rest)
      = (match oldnew.find? (fun p => p.1 == [c]) with
          | some p => p.2
          | none => [c]) ++ replaceLoop oldnew 0 rest := by
  have hfind : oldnew.find? (fun p => (cutOld p.1 (c :: rest)).isSome)
      = oldnew.find? (fun p => p.1 == [c]) := by
    induction oldnew with
    | nil => rfl
    | cons x xs ih =>
      obtain ⟨o, ho⟩ := List.length_eq_one.mp (h x (List.mem_cons_self x xs))
      have ih2 := ih (fun p hp => h p (List.mem_cons_of_mem x hp))
      simp only [List.find?_cons, ho, cutOld_single]
      by_cases hoc : o = c
      · simp [hoc]
      · have hb : (o == c) = false := by simpa using hoc
        simp [hoc, hb, ih2]
  rw [replaceLoop, hfind]
  cases hf : oldnew.find? (fun p => p.1 == [c]) with
  | none => simp
  | some p =>
    obtain ⟨o, ho⟩ := List.length_eq_one.mp (h p (List.mem_of_find?_eq_some hf))
    simp [ho]

theorem englishPairs_eq :
    [(runes "۰", runes "0"), (runes "۱", runes "1"), (runes "۲", runes "2"),
     (runes "۳", runes "3"), (runes "۴", runes "4"), (runes "۵", runes "5"),
     (runes "۶", runes "6"), (runes "۷", runes "7"), (runes "۸", runes "8"),
     (runes "۹", runes "9")]
    = ([([0x6F0], [0x30]), ([0x6F1], [0x31]), ([0x6F2], [0x32]), ([0x6F3], [0x33]),
        ([0x6F4], [0x34]), ([0x6F5], [0x35]), ([0x6F6], [0x36]), ([0x6F7], [0x37]),
        ([0x6F8], [0x38]), ([0x6F9], [0x39])] : List (GoString × GoString)) := by
  decide

theorem persianPairs_eq :
    [(runes "0", runes "۰"), (runes "1", runes "۱"), (runes "2", runes "۲"),
     (runes "3", runes "۳"), (runes "4", runes "۴"), (runes "5", runes "۵"),
     (runes "6", runes "۶"), (runes "7", runes "۷"), (runes "8", runes "۸"),
     (runes "9", runes "۹")]
    = ([([0x30], [0x6F0]), ([0x31], [0x6F1]), ([0x32], [0x6F2]), ([0x33], [0x6F3]),
        ([0x34], [0x6F4]), ([0x35], [0x6F5]), ([0x36], [0x6F6]), ([0x37], [0x6F7]),
        ([0x38], [0x6F8]), ([0x39], [0x6F9])] : List (GoString × GoString)) := by
  decide

theorem ToEnglishDigits_cons (c : rune) (rest : GoString) :
    ToEnglishDigits (c :: rest)
      = (if 0x6F0 ≤ c ∧ c ≤ 0x6F9 then [c - 0x6F0 + 0x30] else [c])
        ++ ToEnglishDigits rest := by
  unfold ToEnglishDigits Replace
  rw [replaceLoop_single _ (by decide)]
  congr 1
  rw [englishPairs_eq]
  by_cases hr : 0x6F0 ≤ c ∧ c ≤ 0x6F9
  · rw [if_pos hr]
    obtain ⟨h1, h2⟩ := hr
    unfold rune at *
    interval_cases c <;> rfl
  · rw [if_neg hr]
    have hne : ∀ k : Int, 0x6F0 ≤ k → k ≤ 0x6F9 → (([k] : List Int) == [c]) = false := by
      intro k hk1 hk2
      have : k ≠ c := by unfold rune at *; omega
      simpa using this
    simp only [List.find?_cons, hne 0x6F0 (by decide) (by decide),
      hne 0x6F1 (by decide) (by decide), hne 0x6F2 (by decide) (by decide),
      hne 0x6F3 (by decide) (by decide), hne 0x6F4 (by decide) (by decide),
      hne 0x6F5 (by decide) (by decide), hne 0x6F6 (by decide) (by decide),
      hne 0x6F7 (by decide) (by decide), hne 0x6F8 (by decide) (by decide),
      hne 0x6F9 (by decide) (by decide), List.find?_nil]

theorem ToPersianDigits_cons (c : rune) (rest : GoString) :
    ToPersianDigits (c :: rest)
      = (if 0x30 ≤ c ∧ c ≤ 0x39 then [c - 0x30 + 0x6F0] else [c])
        ++ ToPersianDigits rest := by
  unfold ToPersianDigits Replace
  rw [replaceLoop_single _ (by decide)]
  congr 1
  rw [persianPairs_eq]
  by_cases hr : 0x30 ≤ c ∧ c ≤ 0x39
  · rw [if_pos hr]
    obtain ⟨h1, h2⟩ := hr
    unfold rune at *
    interval_cases c <;> rfl
  · rw [if_neg hr]
    have hne : ∀ k : Int, 0x30 ≤ k → k ≤ 0x39 → (([k] : List Int) == [c]) = false := by
      intro k hk1 hk2
      have : k ≠ c := by unfold rune at *; omega
      simpa using this
    simp only [List.find?_cons, hne 0x30 (by decide) (by decide),
      hne 0x31 (by decide) (by decide), hne 0x32 (by decide) (by decide),
      hne 0x33 (by decide) (by decide), hne 0x34 (by decide) (by decide),
      hne 0x35 (by decide) (by decide), hne 0x36 (by decide) (by decide),
      hne 0x37 (by decide) (by decide), hne 0x38 (by decide) (by decide),
      hne 0x39 (by decide) (by decide), List.find?_nil]

theorem ToEnglishDigits_nil : ToEnglishDigits [] = [] := rfl

theorem ToPersianDigits_nil : ToPersianDigits [] = [] := rfl

theorem shapeRune_reads_inside (w : GoString) (i : Nat) (hi : i < w.length) :
    ((i : Int) - 1 ≥ 0 → (index w ((i : Int) - 1)).isSome = true) ∧
    ((i : Int) ≠ (w.length : Int) - 1 → (index w ((i : Int) + 1)).isSome = true) := by
  constructor
  · intro h
    have e : (i : Int) - 1 = ((i - 1 : Nat) : Int) := by omega
    rw [e, index_natCast]
    have : i - 1 < w.length := by omega
    simp [List.getElem?_eq_getElem this]
  · intro h
    have e : (i : Int) + 1 = ((i + 1 : Nat) : Int) := by push_cast; ring
    rw [e, index_natCast]
    have : i + 1 < w.length := by omega
    simp [List.getElem?_eq_getElem this]

set_option maxRecDepth 100000 in
theorem forms_distinct : ∀ e1 ∈ persianAlphabetShapes, ∀ e2 ∈ persianAlphabetShapes,
    (∃ g ∈ formsOf e1.2, g ∈ formsOf e2.2) → e1.1 = e2.1 := by
  decide

set_option maxRecDepth 100000 in
theorem keys_nodup : (persianAlphabetShapes.map Prod.fst).Nodup := by
  decide

set_option maxRecDepth 100000 in
theorem nonLeftJoining_entries : ∀ c ∈ nonLeftJoiningLetters,
    (shapeLookup c).any (fun s => s.Medial == s.Final) = true := by
  decide

set_option maxRecDepth 100000 in
theorem equal_medial_final_entries : ∀ e ∈ persianAlphabetShapes,
    e.2.Medial = e.2.Final → e.1 ∈ nonLeftJoiningLetters := by
  decide

theorem TrimSpace_ends (s : GoString) :
    (∀ c ∈ (TrimSpace s).head?, IsSpace c = false) ∧
    (∀ c ∈ (TrimSpace s).getLast?, IsSpace c = false) := by
  constructor
  · intro c hc
    rcases TrimSpace_head s with h0 | ⟨h, t, he, hh⟩
    · rw [h0] at hc; simp at hc
    · rw [he] at hc
      simp only [List.head?_cons, Option.mem_def, Option.some.injEq] at hc
      rw [← hc]; exact hh
  · intro c hc
    obtain ⟨hne, hlast⟩ := List.mem_getLast?_eq_getLast hc
    have := List.rdropWhile_last_not IsSpace (s.dropWhile IsSpace) hne
    rw [hlast]
    simpa [TrimSpace] using this

theorem rdropWhile_append_rtakeWhile {α : Type} (p : α → Bool) (l : List α) :
    l.rdropWhile p ++ l.rtakeWhile p = l := by
  unfold List.rdropWhile List.rtakeWhile
  rw [← List.reverse_append, List.takeWhile_append_dropWhile, List.reverse_reverse]

theorem TrimSpace_decompose (s : GoString) :
    ∃ lead trail : GoString, s = lead ++ TrimSpace s ++ trail ∧
      (∀ c ∈ lead, IsSpace c = true) ∧ (∀ c ∈ trail, IsSpace c = true) := by
  refine ⟨s.takeWhile IsSpace, (s.dropWhile IsSpace).rtakeWhile IsSpace, ?_, ?_, ?_⟩
  · unfold TrimSpace
    rw [List.append_assoc, rdropWhile_append_rtakeWhile, List.takeWhile_append_dropWhile]
  · intro c hc
    exact List.mem_takeWhile_imp hc
  · intro c hc
    exact List.mem_rtakeWhile_imp hc

theorem fieldsLoop_props (s : GoString) : ∀ cur : GoString,
    (∀ c ∈ cur, IsSpace c = false) → ∀ w ∈ fieldsLoop s cur,
      w ≠ [] ∧ ∀ c ∈ w, IsSpace c = false ∧ (c ∈ cur ∨ c ∈ s) := by
  induction s with
  | nil =>
    intro cur hcur w hw
    by_cases h : cur = []
    · simp [fieldsLoop, h] at hw
    · simp only [fieldsLoop, h, if_false, List.mem_singleton] at hw
      subst hw
      exact ⟨h, fun c hc => ⟨hcur c hc, Or.inl hc⟩⟩
  | cons d rest ih =>
    intro cur hcur w hw
    cases hd : IsSpace d with
    | true =>
      simp only [fieldsLoop, hd, if_true] at hw
      have hrest : w ∈ fieldsLoop rest [] → w ≠ [] ∧
          ∀ c ∈ w, IsSpace c = false ∧ (c ∈ cur ∨ c ∈ d :: rest) := by
        intro hw2
        obtain ⟨h1, h2⟩ := ih [] (by simp) w hw2
        refine ⟨h1, fun c hc => ?_⟩
        obtain ⟨h3, h4⟩ := h2 c hc
        rcases h4 with h4 | h4
        · simp at h4
        · exact ⟨h3, Or.inr (List.mem_cons_of_mem d h4)⟩
      by_cases h : cur = []
      · rw [if_pos h] at hw; exact hrest hw
      · rw [if_neg h] at hw
        rcases List.mem_cons.mp hw with h1 | h1
        · subst h1
          exact ⟨h, fun c hc => ⟨hcur c hc, Or.inl hc⟩⟩
        · exact hrest h1
    | false =>
      simp only [fieldsLoop, hd, Bool.false_eq_true, if_false] at hw
      have hcur2 : ∀ c ∈ cur ++ [d], IsSpace c = false := by
        intro c hc
        rcases List.mem_append.mp hc with h1 | h1
        · exact hcur c h1
        · rw [List.mem_singleton.mp h1]; exact hd
      obtain ⟨h1, h2⟩ := ih (cur ++ [d]) hcur2 w hw
      refine ⟨h1, fun c hc => ?_⟩
      obtain ⟨h3, h4⟩ := h2 c hc
      refine ⟨h3, ?_⟩
      rcases h4 with h4 | h4
      · rcases List.mem_append.mp h4 with h5 | h5
        · exact Or.inl h5
        · rw [List.mem_singleton.mp h5]; exact Or.inr (List.mem_cons_self d rest)
      · exact Or.inr (List.mem_cons_of_mem d h4)

theorem Fields_props (s : GoString) : ∀ w ∈ Fields s,
    w ≠ [] ∧ ∀ c ∈ w, IsSpace c = false ∧ c ∈ s := by
  intro w hw
  obtain ⟨h1, h2⟩ := fieldsLoop_props s [] (by simp) w hw
  refine ⟨h1, fun c hc => ?_⟩
  obtain ⟨h3, h4⟩ := h2 c hc
  rcases h4 with h4 | h4
  · simp at h4
  · exact ⟨h3, h4⟩

set_option maxRecDepth 100000 in
theorem forms_not_space : ∀ e ∈ persianAlphabetShapes, ∀ g ∈ formsOf e.2,
    IsSpace g = false := by
  decide

theorem positionRule_mem_formsOf (pb pf : Option rune) (s : letterShape) :
    positionRule pb pf s ∈ formsOf s := by
  rcases positionRule_form pb pf s with h | h | h | h <;> rw [h] <;> simp [formsOf]

theorem refShapeAt_not_space (w : GoString) (i : Nat) (c : rune)
    (hc : IsSpace c = false) : IsSpace (refShapeAt w i c) = false := by
  unfold refShapeAt
  cases hl : shapeLookup c with
  | none => exact hc
  | some s =>
    exact forms_not_space (c, s) (mem_of_lookup _ c s hl) _ (positionRule_mem_formsOf _ _ s)

theorem refShapeWord_length (w : GoString) : (refShapeWord w).length = w.length := by
  unfold refShapeWord
  cases IsPersian w <;> simp

theorem refShapeWord_no_space (w : GoString) (h : ∀ c ∈ w, IsSpace c = false) :
    ∀ c ∈ refShapeWord w, IsSpace c = false := by
  intro c hc
  unfold refShapeWord at hc
  cases hp : IsPersian w with
  | false =>
    rw [hp] at hc
    exact h c hc
  | true =>
    rw [hp] at hc
    simp only [if_true, List.mem_reverse] at hc
    obtain ⟨n, hn, he⟩ := List.mem_iff_getElem.mp hc
    rw [List.getElem_mapIdx] at he
    rw [← he]
    exact refShapeAt_not_space w n _ (h _ (List.getElem_mem _))

theorem ends_of_no_space (u : GoString) (h : ∀ c ∈ u, IsSpace c = false) :
    (∀ c ∈ u.head?, IsSpace c = false) ∧ (∀ c ∈ u.getLast?, IsSpace c = false) :=
  ⟨fun c hc => h c (List.mem_of_mem_head? hc), fun c hc => h c (List.mem_of_mem_getLast? hc)⟩

theorem unitsOf_props (sec : GoString)
    (hsec : (∀ c ∈ sec.head?, IsSpace c = false) ∧ (∀ c ∈ sec.getLast?, IsSpace c = false)) :
    ∀ u ∈ unitsOf sec, u ≠ [] ∧
      (∀ c ∈ u.head?, IsSpace c = false) ∧ (∀ c ∈ u.getLast?, IsSpace c = false) := by
  intro u hu
  unfold unitsOf at hu
  cases hp : IsPersian sec with
  | true =>
    rw [hp] at hu
    simp only [if_true, List.mem_map] at hu
    obtain ⟨w, hw, he⟩ := hu
    obtain ⟨h1, h2⟩ := Fields_props sec w hw
    subst he
    refine ⟨?_, ends_of_no_space _ (refShapeWord_no_space w (fun c hc => (h2 c hc).1))⟩
    intro h0
    have := refShapeWord_length w
    rw [h0] at this
    exact h1 (List.length_eq_zero.mp this.symm)
  | false =>
    rw [hp] at hu
    simp only [Bool.false_eq_true, if_false, List.mem_singleton] at hu
    subst hu
    refine ⟨?_, hsec⟩
    intro h0
    rw [h0] at hp
    exact absurd hp (by decide)

theorem segStep_sections (st : segState) (c : rune) (P : GoString → Prop)
    (hP : ∀ run, P (TrimSpace run)) (h : ∀ sec ∈ st.langSections, P sec) :
    ∀ sec ∈ (segStep st c).langSections, P sec := by
  intro sec hsec
  unfold segStep at hsec
  cases hp : IsPersianLetter c with
  | true =>
    rw [hp] at hsec
    simp only [if_true] at hsec
    by_cases hl : st.continuousLangLt.length > 0
    · rw [if_pos hl] at hsec
      rcases List.mem_append.mp hsec with h1 | h1
      · exact h sec h1
      · rw [List.mem_singleton.mp h1]; exact hP _
    · rw [if_neg hl] at hsec; exact h sec hsec
  | false =>
    rw [hp] at hsec
    simp only [Bool.false_eq_true, if_false] at hsec
    by_cases hl : st.continuousLangFa.length > 0
    · rw [if_pos hl] at hsec
      rcases List.mem_append.mp hsec with h1 | h1
      · exact h sec h1
      · rw [List.mem_singleton.mp h1]; exact hP _
    · rw [if_neg hl] at hsec; exact h sec hsec

theorem foldl_segStep_sections (l : GoString) (P : GoString → Prop)
    (hP : ∀ run, P (TrimSpace run)) : ∀ st : segState,
    (∀ sec ∈ st.langSections, P sec) →
    ∀ sec ∈ (l.foldl segStep st).langSections, P sec := by
  induction l with
  | nil => intro st h; exact h
  | cons c rest ih =>
    intro st h
    rw [List.foldl_cons]
    exact ih _ (segStep_sections st c P hP h)

theorem segFlush_sections (st : segState) (P : GoString → Prop)
    (hP : ∀ run, P (TrimSpace run)) (h : ∀ sec ∈ st.langSections, P sec) :
    ∀ sec ∈ segFlush st, P sec := by
  intro sec hsec
  unfold segFlush at hsec
  have h1 : ∀ x ∈ (if st.continuousLangLt.length > 0 then
      st.langSections ++ [TrimSpace st.continuousLangLt] else st.langSections), P x := by
    intro x hx
    by_cases hl : st.continuousLangLt.length > 0
    · rw [if_pos hl] at hx
      rcases List.mem_append.mp hx with h1 | h1
      · exact h x h1
      · rw [List.mem_singleton.mp h1]; exact hP _
    · rw [if_neg hl] at hx; exact h x hx
  by_cases hf : st.continuousLangFa.length > 0
  · simp only [hf, if_true] at hsec
    rcases List.mem_append.mp hsec with h2 | h2
    · exact h1 sec h2
    · rw [List.mem_singleton.mp h2]; exact hP _
  · simp only [hf, if_false] at hsec
    exact h1 sec hsec

theorem langSections_trimmed (input : GoString) : ∀ sec ∈ langSectionsOf input,
    (∀ c ∈ sec.head?, IsSpace c = false) ∧ (∀ c ∈ sec.getLast?, IsSpace c = false) := by
  unfold langSectionsOf
  exact segFlush_sections _
    (fun sec => (∀ c ∈ sec.head?, IsSpace c = false) ∧ (∀ c ∈ sec.getLast?, IsSpace c = false))
    TrimSpace_ends
    (foldl_segStep_sections input _ TrimSpace_ends _ (fun sec hsec => by simp at hsec))

theorem units_props (input : GoString) :
    ∀ u ∈ (langSectionsOf input).flatMap unitsOf, u ≠ [] ∧
      (∀ c ∈ u.head?, IsSpace c = false) ∧ (∀ c ∈ u.getLast?, IsSpace c = false) := by
  intro u hu
  obtain ⟨sec, hsec, hu2⟩ := List.mem_flatMap.mp hu
  exact unitsOf_props sec (langSections_trimmed input sec hsec) u hu2

theorem Join_cons (a : GoString) (rest : List GoString) (sep : GoString) :
    Join (a :: rest) sep = if rest = [] then a else a ++ sep ++ Join rest sep := by
  cases rest with
  | nil => simp [Join]
  | cons b r => simp [Join]

theorem Join_eq_nil_iff (units : List GoString) (sep : GoString)
    (h : ∀ u ∈ units, u ≠ []) : Join units sep = [] ↔ units = [] := by
  cases units with
  | nil => simp [Join]
  | cons a rest =>
    have ha : a ≠ [] := h a (List.mem_cons_self a rest)
    rw [Join_cons]
    by_cases hr : rest = []
    · simp [hr, ha]
    · simp [hr, ha]

theorem Join_append (xs ys : List GoString) (sep : GoString) :
    Join (xs ++ ys) sep
      = if xs = [] then Join ys sep
        else if ys = [] then Join xs sep
        else Join xs sep ++ sep ++ Join ys sep := by
  induction xs with
  | nil => simp
  | cons a rest ih =>
    by_cases hy : ys = []
    · simp [hy]
    · rw [List.cons_append, Join_cons, Join_cons, ih]
      by_cases hr : rest = []
      · simp [hr, hy]
      · simp [hr, hy]

theorem Join_ends (units : List GoString) (sep : GoString)
    (h : ∀ u ∈ units, u ≠ [] ∧
      (∀ c ∈ u.head?, IsSpace c = false) ∧ (∀ c ∈ u.getLast?, IsSpace c = false)) :
    (∀ c ∈ (Join units sep).head?, IsSpace c = false) ∧
    (∀ c ∈ (Join units sep).getLast?, IsSpace c = false) := by
  induction units with
  | nil => simp [Join]
  | cons a rest ih =>
    obtain ⟨ha, hah, hal⟩ := h a (List.mem_cons_self a rest)
    have hrest := fun u hu => h u (List.mem_cons_of_mem a hu)
    obtain ⟨ih1, ih2⟩ := ih hrest
    rw [Join_cons]
    by_cases hr : rest = []
    · rw [if_pos hr]; exact ⟨hah, hal⟩
    · rw [if_neg hr]
      have hj : Join rest sep ≠ [] := by
        intro h0
        exact hr ((Join_eq_nil_iff rest sep (fun u hu => (hrest u hu).1)).mp h0)
      constructor
      · intro c hc
        rw [List.append_assoc, List.head?_append_of_ne_nil _ ha] at hc
        exact hah c hc
      · intro c hc
        rw [List.getLast?_append_of_ne_nil _ hj] at hc
        exact ih2 c hc

theorem segStep_shift (pre : List GoString) (secs : List GoString) (fa lt : GoString)
    (c : rune) :
    segStep ⟨pre ++ secs, fa, lt⟩ c
      = ⟨pre ++ (segStep ⟨secs, fa, lt⟩ c).langSections,
         (segStep ⟨secs, fa, lt⟩ c).continuousLangFa,
         (segStep ⟨secs, fa, lt⟩ c).continuousLangLt⟩ := by
  unfold segStep
  cases IsPersianLetter c
  · by_cases h : fa.length > 0 <;> simp [h]
  · by_cases h : lt.length > 0 <;> simp [h]

theorem foldl_segStep_shift (l : GoString) : ∀ (pre secs : List GoString) (fa lt : GoString),
    l.foldl segStep ⟨pre ++ secs, fa, lt⟩
      = ⟨pre ++ (l.foldl segStep ⟨secs, fa, lt⟩).langSections,
         (l.foldl segStep ⟨secs, fa, lt⟩).continuousLangFa,
         (l.foldl segStep ⟨secs, fa, lt⟩).continuousLangLt⟩ := by
  induction l with
  | nil => intro pre secs fa lt; rfl
  | cons c rest ih =>
    intro pre secs fa lt
    rw [List.foldl_cons, List.foldl_cons, segStep_shift, ih]

theorem segFlush_shift (pre secs : List GoString) (fa lt : GoString) :
    segFlush ⟨pre ++ secs, fa, lt⟩ = pre ++ segFlush ⟨secs, fa, lt⟩ := by
  unfold segFlush
  by_cases h1 : lt.length > 0 <;> by_cases h2 : fa.length > 0 <;> simp [h1, h2]

theorem segStep_boundary (st : segState) (c d : rune)
    (h : IsPersianLetter c ≠ IsPersianLetter d) :
    segStep (segStep st c) d
      = ⟨segFlush (segStep st c) ++ (segStep ⟨[], [], []⟩ d).langSections,
         (segStep ⟨[], [], []⟩ d).continuousLangFa,
         (segStep ⟨[], [], []⟩ d).continuousLangLt⟩ := by
  unfold segStep segFlush
  cases hc : IsPersianLetter c <;> cases hd : IsPersianLetter d
  · rw [hc, hd] at h; exact absurd rfl h
  · simp
  · simp
  · rw [hc, hd] at h; exact absurd rfl h

theorem langSections_append_boundary (front back : GoString) (c d : rune)
    (h : IsPersianLetter c ≠ IsPersianLetter d) :
    langSectionsOf ((front ++ [c]) ++ d :: back)
      = langSectionsOf (front ++ [c]) ++ langSectionsOf (d :: back) := by
  unfold langSectionsOf
  simp only [List.foldl_append, List.foldl_cons, List.foldl_nil]
  rw [segStep_boundary _ c d h, foldl_segStep_shift, segFlush_shift]

theorem units_append_boundary (a b : GoString) (ha : a ≠ []) (hb : b ≠ [])
    (h : ∀ c ∈ a.getLast?, ∀ d ∈ b.head?, IsPersianLetter c ≠ IsPersianLetter d) :
    (langSectionsOf (a ++ b)).flatMap unitsOf
      = (langSectionsOf a).flatMap unitsOf ++ (langSectionsOf b).flatMap unitsOf := by
  obtain ⟨front, c, hfront⟩ : ∃ front c, a = front ++ [c] := by
    rcases List.eq_nil_or_concat a with h0 | ⟨L, x, h0⟩
    · exact absurd h0 ha
    · exact ⟨L, x, by simpa using h0⟩
  match b, hb, h with
  | d :: back, _, h =>
    subst hfront
    have hcd : IsPersianLetter c ≠ IsPersianLetter d :=
      h c (by simp) d (by simp)
    rw [langSections_append_boundary front back c d hcd, List.flatMap_append]

/-- On rune sequences: for a run `a` without script letters that holds a
character that is not white space, and a non-empty run `p` of script letters,
the two-run inputs give two units in reversed order with one space between
them. -/
theorem ReShape_two_runs (a p : GoString)
    (ha : ∀ c ∈ a, IsPersianLetter c = false) (hns : ∃ c ∈ a, IsSpace c = false)
    (hp : p ≠ []) (hpl : ∀ c ∈ p, IsPersianLetter c = true) :
    ∃ shaped : GoString, shapeWord p = some shaped ∧
      ReShape (a ++ p) = some (shaped ++ [0x20] ++ TrimSpace a) ∧
      ReShape (p ++ a) = some (TrimSpace a ++ [0x20] ++ shaped) := by
  obtain ⟨x, hx, hxs⟩ := hns
  have hta : TrimSpace a ≠ [] := List.ne_nil_of_mem (mem_TrimSpace a x hx hxs)
  have hua : unitsOf (TrimSpace a) = [TrimSpace a] := by
    rw [unitsOf_TrimSpace_other a ha, if_neg hta]
  have hup : unitsOf p = [refShapeWord p] := unitsOf_word p hp hpl
  have htp : TrimSpace p = p := TrimSpace_of_no_space p (letters_no_space p hpl)
  refine ⟨refShapeWord p, shapeWord_eq p, ?_, ?_⟩
  · match a, p, ha, hp, hpl with
    | c :: ar, d :: pr, ha, _, hpl =>
      have hseg : langSectionsOf ((c :: ar) ++ (d :: pr))
          = [TrimSpace (c :: ar), TrimSpace (d :: pr)] := by
        unfold langSectionsOf
        rw [List.foldl_append, foldl_segStep_other ar c [] [] [] ha,
          foldl_segStep_letters pr d _ [] _ hpl]
        simp [segFlush]
      rw [ReShape_eq, hseg]
      simp only [List.flatMap_cons, List.flatMap_nil, List.append_nil]
      rw [htp, hua, hup]
      simp [Join]
  · match a, p, ha, hp, hpl with
    | c :: ar, d :: pr, ha, _, hpl =>
      have hseg : langSectionsOf ((d :: pr) ++ (c :: ar))
          = [TrimSpace (d :: pr), TrimSpace (c :: ar)] := by
        unfold langSectionsOf
        rw [List.foldl_append, foldl_segStep_letters pr d [] [] [] hpl,
          foldl_segStep_other ar c _ _ [] ha]
        simp [segFlush]
      rw [ReShape_eq, hseg]
      simp only [List.flatMap_cons, List.flatMap_nil, List.append_nil]
      rw [htp, hua, hup]
      simp [Join]

theorem decodeRune_one (b0 : Nat) (t : GoBytes) (h : b0 < 0x80) :
    decodeRune (b0 :: t) = ((b0 : Int), 1) := by
  simp [decodeRune, h]

theorem decodeRune_two (b0 b1 : Nat) (t : GoBytes) (h0 : 0xC2 ≤ b0 ∧ b0 ≤ 0xDF)
    (h1 : 0x80 ≤ b1 ∧ b1 ≤ 0xBF) :
    decodeRune (b0 :: b1 :: t) = (((b0 % 32 * 64 + b1 % 64 : Nat) : Int), 2) := by
  have hn : ¬ b0 < 0x80 := by omega
  have hc : 0xC2 ≤ b0 ∧ b0 ≤ 0xDF ∧ 2 ≤ (b0 :: b1 :: t).length ∧ isCont b1 = true :=
    ⟨h0.1, h0.2, by simp, by simp [isCont, h1]⟩
  unfold decodeRune
  simp only [List.getD_cons_zero, List.getD_cons_succ]
  rw [if_neg hn, if_pos hc]

theorem decodeRune_three (b0 b1 b2 : Nat) (t : GoBytes) (h0 : 0xE0 ≤ b0 ∧ b0 ≤ 0xEF)
    (h1 : acceptLo b0 ≤ b1 ∧ b1 ≤ acceptHi b0) (h2 : 0x80 ≤ b2 ∧ b2 ≤ 0xBF) :
    decodeRune (b0 :: b1 :: b2 :: t)
      = (((b0 % 16 * 4096 + b1 % 64 * 64 + b2 % 64 : Nat) : Int), 3) := by
  have hn : ¬ b0 < 0x80 := by omega
  have hn2 : ¬ (0xC2 ≤ b0 ∧ b0 ≤ 0xDF ∧ 2 ≤ (b0 :: b1 :: b2 :: t).length ∧
      isCont b1 = true) := by
    intro h; omega
  have hc : 0xE0 ≤ b0 ∧ b0 ≤ 0xEF ∧ 3 ≤ (b0 :: b1 :: b2 :: t).length ∧
      acceptLo b0 ≤ b1 ∧ b1 ≤ acceptHi b0 ∧ isCont b2 = true :=
    ⟨h0.1, h0.2, by simp, h1.1, h1.2, by simp [isCont, h2]⟩
  unfold decodeRune
  simp only [List.getD_cons_zero, List.getD_cons_succ]
  rw [if_neg hn, if_neg hn2, if_pos hc]

theorem decodeRune_four (b0 b1 b2 b3 : Nat) (t : GoBytes) (h0 : 0xF0 ≤ b0 ∧ b0 ≤ 0xF4)
    (h1 : acceptLo b0 ≤ b1 ∧ b1 ≤ acceptHi b0) (h2 : 0x80 ≤ b2 ∧ b2 ≤ 0xBF)
    (h3 : 0x80 ≤ b3 ∧ b3 ≤ 0xBF) :
    decodeRune (b0 :: b1 :: b2 :: b3 :: t)
      = (((b0 % 8 * 262144 + b1 % 64 * 4096 + b2 % 64 * 64 + b3 % 64 : Nat) : Int), 4) := by
  have hn : ¬ b0 < 0x80 := by omega
  have hn2 : ¬ (0xC2 ≤ b0 ∧ b0 ≤ 0xDF ∧ 2 ≤ (b0 :: b1 :: b2 :: b3 :: t).length ∧
      isCont b1 = true) := by
    intro h; omega
  have hn3 : ¬ (0xE0 ≤ b0 ∧ b0 ≤ 0xEF ∧ 3 ≤ (b0 :: b1 :: b2 :: b3 :: t).length ∧
      acceptLo b0 ≤ b1 ∧ b1 ≤ acceptHi b0 ∧ isCont b2 = true) := by
    intro h; omega
  have hc : 0xF0 ≤ b0 ∧ b0 ≤ 0xF4 ∧ 4 ≤ (b0 :: b1 :: b2 :: b3 :: t).length ∧
      acceptLo b0 ≤ b1 ∧ b1 ≤ acceptHi b0 ∧ isCont b2 = true ∧ isCont b3 = true :=
    ⟨h0.1, h0.2, by simp, h1.1, h1.2, by simp [isCont, h2], by simp [isCont, h3]⟩
  unfold decodeRune
  simp only [List.getD_cons_zero, List.getD_cons_succ]
  rw [if_neg hn, if_neg hn2, if_neg hn3, if_pos hc]

theorem decodeRune_encodeRune (r : rune) (t : GoBytes)
    (h0 : 0 ≤ r) (h1 : r ≤ 0x10FFFF) (h2 : ¬ (0xD800 ≤ r ∧ r ≤ 0xDFFF)) :
    decodeRune (encodeRune r ++ t) = (r, (encodeRune r).length) := by
  unfold rune at *
  lift r to Nat using h0 with n
  have hvalid : ¬ ((n : Int) < 0 ∨ 0x10FFFF < (n : Int) ∨
      (0xD800 ≤ (n : Int) ∧ (n : Int) ≤ 0xDFFF)) := by
    omega
  unfold encodeRune
  rw [if_neg hvalid]
  simp only [Int.toNat_ofNat]
  by_cases c1 : (n : Int) < 0x80
  · rw [if_pos c1]
    exact decodeRune_one n t (by omega)
  · rw [if_neg c1]
    by_cases c2 : (n : Int) < 0x800
    · rw [if_pos c2]
      have e := decodeRune_two (0xC0 + n / 64) (0x80 + n % 64) t (by omega) (by omega)
      have hv : (0xC0 + n / 64) % 32 * 64 + (0x80 + n % 64) % 64 = n := by omega
      rw [hv] at e
      exact e
    · rw [if_neg c2]
      by_cases c3 : (n : Int) < 0x10000
      · rw [if_pos c3]
        have hacc : acceptLo (0xE0 + n / 4096) ≤ 0x80 + n / 64 % 64 ∧
            0x80 + n / 64 % 64 ≤ acceptHi (0xE0 + n / 4096) := by
          unfold acceptLo acceptHi
          constructor
          · split_ifs <;> omega
          · split_ifs <;> omega
        have e := decodeRune_three (0xE0 + n / 4096) (0x80 + n / 64 % 64) (0x80 + n % 64) t
          (by omega) hacc (by omega)
        have hv : (0xE0 + n / 4096) % 16 * 4096 + (0x80 + n / 64 % 64) % 64 * 64
            + (0x80 + n % 64) % 64 = n := by omega
        rw [hv] at e
        exact e
      · rw [if_neg c3]
        have hacc : acceptLo (0xF0 + n / 262144) ≤ 0x80 + n / 4096 % 64 ∧
            0x80 + n / 4096 % 64 ≤ acceptHi (0xF0 + n / 262144) := by
          unfold acceptLo acceptHi
          constructor
          · split_ifs <;> omega
          · split_ifs <;> omega
        have e := decodeRune_four (0xF0 + n / 262144) (0x80 + n / 4096 % 64)
          (0x80 + n / 64 % 64) (0x80 + n % 64) t (by omega) hacc (by omega) (by omega)
        have hv : (0xF0 + n / 262144) % 8 * 262144 + (0x80 + n / 4096 % 64) % 64 * 4096
            + (0x80 + n / 64 % 64) % 64 * 64 + (0x80 + n % 64) % 64 = n := by omega
        rw [hv] at e
        exact e

theorem isScalarValue_iff (r : rune) :
    isScalarValue r = true ↔ 0 ≤ r ∧ r ≤ 0x10FFFF ∧ ¬ (0xD800 ≤ r ∧ r ≤ 0xDFFF) := by
  unfold isScalarValue
  exact decide_eq_true_iff

theorem decodeLoop_skip (pre t : GoBytes) :
    decodeLoop pre.length (pre ++ t) = decodeLoop 0 t := by
  induction pre with
  | nil => rfl
  | cons x p ih => simpa [decodeLoop] using ih

theorem encodeRune_cons (r : rune) : ∃ b rest, encodeRune r = b :: rest := by
  unfold encodeRune
  split_ifs <;> exact ⟨_, _, rfl⟩

theorem decodeRunes_encodeRune_append (r : rune) (t : GoBytes)
    (h : isScalarValue r = true) :
    decodeRunes (encodeRune r ++ t) = r :: decodeRunes t := by
  obtain ⟨h0, h1, h2⟩ := (isScalarValue_iff r).mp h
  have hd := decodeRune_encodeRune r t h0 h1 h2
  obtain ⟨b, rest, hb⟩ := encodeRune_cons r
  rw [hb] at hd ⊢
  unfold decodeRunes
  rw [List.cons_append] at hd ⊢
  rw [decodeLoop, hd]
  simp only [List.length_cons, Nat.add_sub_cancel]
  rw [decodeLoop_skip]

theorem decodeRunes_encodeRunes_append (rs : GoString) (t : GoBytes)
    (h : ∀ r ∈ rs, isScalarValue r = true) :
    decodeRunes (encodeRunes rs ++ t) = rs ++ decodeRunes t := by
  induction rs with
  | nil => rfl
  | cons r rest ih =>
    have hr := h r (List.mem_cons_self r rest)
    have ih2 := ih (fun x hx => h x (List.mem_cons_of_mem r hx))
    unfold encodeRunes at ih2 ⊢
    rw [List.flatMap_cons, List.append_assoc, decodeRunes_encodeRune_append r _ hr, ih2]
    rfl

theorem decodeRunes_encodeRunes (rs : GoString) (h : ∀ r ∈ rs, isScalarValue r = true) :
    decodeRunes (encodeRunes rs) = rs := by
  have := decodeRunes_encodeRunes_append rs [] h
  simpa [decodeRunes, decodeLoop] using this

theorem encodeRunes_append (xs ys : GoString) :
    encodeRunes (xs ++ ys) = encodeRunes xs ++ encodeRunes ys := by
  simp [encodeRunes]

theorem decodeRune_scalar (s : GoBytes) : isScalarValue (decodeRune s).1 = true := by
  rw [isScalarValue_iff]
  unfold decodeRune
  simp only
  split_ifs with c1 c2 c3 c4
  · simp only; unfold rune; omega
  · simp only; unfold rune; omega
  · obtain ⟨h1, h2, _, h3, h4, _⟩ := c3
    unfold acceptLo at h3
    unfold acceptHi at h4
    simp only
    unfold rune
    split_ifs at h3 h4 <;> omega
  · obtain ⟨h1, h2, _, h3, h4, _⟩ := c4
    unfold acceptLo at h3
    unfold acceptHi at h4
    simp only
    unfold rune
    split_ifs at h3 h4 <;> omega
  · simp only [RuneError]; unfold rune; omega

theorem decodeLoop_scalar (s : GoBytes) : ∀ k : Nat, ∀ r ∈ decodeLoop k s,
    isScalarValue r = true := by
  induction s with
  | nil => intro k r hr; simp [decodeLoop] at hr
  | cons b rest ih =>
    intro k r hr
    cases k with
    | succ k => rw [decodeLoop] at hr; exact ih k r hr
    | zero =>
      rw [decodeLoop] at hr
      rcases List.mem_cons.mp hr with h | h
      · rw [h]; exact decodeRune_scalar _
      · exact ih _ r h

theorem decodeRunes_scalar (s : GoBytes) : ∀ r ∈ decodeRunes s, isScalarValue r = true :=
  decodeLoop_scalar s 0

theorem ValidString_iff (s : GoBytes) :
    ValidString s = true ↔ encodeRunes (decodeRunes s) = s := by
  simp [ValidString]

theorem decodeRunes_append (a t : GoBytes) (h : ValidString a = true) :
    decodeRunes (a ++ t) = decodeRunes a ++ decodeRunes t := by
  have ha := (ValidString_iff a).mp h
  have := decodeRunes_encodeRunes_append (decodeRunes a) t (decodeRunes_scalar a)
  rw [ha] at this
  exact this

theorem IsPersianLetter_iff (r : rune) :
    IsPersianLetter r = true ↔ 0x600 ≤ r ∧ r ≤ 0x6FF := by
  simp [IsPersianLetter]

theorem decodeRune_letter_cases (s : GoBytes)
    (h : IsPersianLetter (decodeRune s).1 = true) :
    0xC2 ≤ s.getD 0 0 ∧ s.getD 0 0 ≤ 0xDF ∧ 2 ≤ s.length ∧ isCont (s.getD 1 0) = true := by
  rw [IsPersianLetter_iff] at h
  unfold decodeRune at h
  simp only at h
  split_ifs at h with c1 c2 c3 c4
  · simp only at h; unfold rune at h; omega
  · exact c2
  · obtain ⟨h1, h2, _, h3, h4, _⟩ := c3
    unfold acceptLo at h3
    unfold acceptHi at h4
    simp only at h
    unfold rune at h
    split_ifs at h3 h4 <;> omega
  · obtain ⟨h1, h2, _, h3, h4, _⟩ := c4
    unfold acceptLo at h3
    unfold acceptHi at h4
    simp only at h
    unfold rune at h
    split_ifs at h3 h4 <;> omega
  · simp only [RuneError] at h; unfold rune at h; omega

theorem decodeRune_letter (b0 : Nat) (rest : GoBytes)
    (h : IsPersianLetter (decodeRune (b0 :: rest)).1 = true) :
    ∃ b1 tail, rest = b1 :: tail ∧ (decodeRune (b0 :: rest)).2 = 2 ∧
      encodeRune (decodeRune (b0 :: rest)).1 = [b0, b1] := by
  obtain ⟨h1, h2, h3, h4⟩ := decodeRune_letter_cases _ h
  match rest, h, h3, h4 with
  | b1 :: tail, h, _, h4 =>
    simp only [List.getD_cons_zero, List.getD_cons_succ, isCont, decide_eq_true_eq] at h1 h2 h4
    have e := decodeRune_two b0 b1 tail ⟨h1, h2⟩ h4
    refine ⟨b1, tail, rfl, by rw [e], ?_⟩
    rw [e] at h ⊢
    rw [IsPersianLetter_iff] at h
    simp only at h ⊢
    unfold rune at h
    have hv : ¬ (((b0 % 32 * 64 + b1 % 64 : Nat) : Int) < 0 ∨
        0x10FFFF < ((b0 % 32 * 64 + b1 % 64 : Nat) : Int) ∨
        (0xD800 ≤ ((b0 % 32 * 64 + b1 % 64 : Nat) : Int) ∧
          ((b0 % 32 * 64 + b1 % 64 : Nat) : Int) ≤ 0xDFFF)) := by omega
    have hn1 : ¬ (((b0 % 32 * 64 + b1 % 64 : Nat) : Int) < 0x80) := by omega
    have hp2 : ((b0 % 32 * 64 + b1 % 64 : Nat) : Int) < 0x800 := by omega
    unfold encodeRune
    rw [if_neg hv, if_neg hn1, if_pos hp2]
    simp only [Int.toNat_ofNat]
    have e0 : 0xC0 + (b0 % 32 * 64 + b1 % 64) / 64 = b0 := by omega
    have e1 : 0x80 + (b0 % 32 * 64 + b1 % 64) % 64 = b1 := by omega
    rw [e0, e1]

theorem letters_valid_aux (n : Nat) : ∀ p : GoBytes, p.length ≤ n →
    (∀ r ∈ decodeRunes p, IsPersianLetter r = true) →
    encodeRunes (decodeRunes p) = p := by
  induction n with
  | zero =>
    intro p hp _
    have : p = [] := List.length_eq_zero.mp (Nat.le_zero.mp hp)
    subst this
    rfl
  | succ n ih =>
    intro p hp h
    match p, hp, h with
    | [], _, _ => rfl
    | b0 :: rest, hp, h =>
      have hd : decodeRunes (b0 :: rest)
          = (decodeRune (b0 :: rest)).1
            :: decodeLoop ((decodeRune (b0 :: rest)).2 - 1) rest := by
        unfold decodeRunes; rw [decodeLoop]
      have hr : IsPersianLetter (decodeRune (b0 :: rest)).1 = true :=
        h _ (by rw [hd]; exact List.mem_cons_self _ _)
      obtain ⟨b1, tail, ht, hsz, henc⟩ := decodeRune_letter b0 rest hr
      have hd2 : decodeRunes (b0 :: rest)
          = (decodeRune (b0 :: rest)).1 :: decodeRunes tail := by
        rw [hd, hsz, ht]
        rfl
      have htail : ∀ r ∈ decodeRunes tail, IsPersianLetter r = true := by
        intro r hr2
        exact h r (by rw [hd2]; exact List.mem_cons_of_mem _ hr2)
      have hlen : tail.length ≤ n := by
        rw [ht] at hp
        simp only [List.length_cons] at hp
        omega
      have ih2 := ih tail hlen htail
      rw [hd2]
      unfold encodeRunes at ih2 ⊢
      rw [List.flatMap_cons, henc, ih2, ht]
      rfl

theorem letters_valid (p : GoBytes) (h : ∀ r ∈ decodeRunes p, IsPersianLetter r = true) :
    ValidString p = true :=
  (ValidString_iff p).mpr (letters_valid_aux p.length p (le_refl _) h)

theorem decodeRunes_ne_nil (p : GoBytes) (h : p ≠ []) : decodeRunes p ≠ [] := by
  match p, h with
  | b :: rest, _ =>
    unfold decodeRunes
    rw [decodeLoop]
    exact List.cons_ne_nil _ _

theorem TrimSpace_bytes (s : GoBytes) (hv : ValidString s = true) :
    ∃ lead trail : GoString,
      s = encodeRunes lead ++ encodeRunes (TrimSpace (decodeRunes s)) ++ encodeRunes trail ∧
      (∀ c ∈ lead, IsSpace c = true) ∧ (∀ c ∈ trail, IsSpace c = true) := by
  obtain ⟨lead, trail, hs, hl, ht⟩ := TrimSpace_decompose (decodeRunes s)
  refine ⟨lead, trail, ?_, hl, ht⟩
  rw [← encodeRunes_append, ← encodeRunes_append, ← hs]
  exact ((ValidString_iff s).mp hv).symm

theorem decodeRunes_TrimSpace (s : GoBytes) :
    decodeRunes (encodeRunes (TrimSpace (decodeRunes s))) = TrimSpace (decodeRunes s) :=
  decodeRunes_encodeRunes _
    (fun r hr => decodeRunes_scalar s r (mem_of_mem_TrimSpace _ r hr))

theorem encodeRunes_space : encodeRunes [0x20] = [0x20] := by
  decide

/-! ## The claims -/

/-- C1. For a key `k` of the shape table with entry `s`, and neighbours that
are each zero (absent) or a key of the table, `adjustLetter` returns the slot of
`s` that the Position Resolution Rule names: Medial or Initial between two
letters, Initial with only a following letter, Final or Isolated with only a
preceding letter, Isolated alone; the second alternative is taken when the
preceding letter is in the non-left-joining set. -/
theorem adjustLetter_position_rule (k back front : rune) (s : letterShape)
    (hk : shapeLookup k = some s)
    (hback : back = 0 ∨ (shapeLookup back).isSome = true)
    (hfront : front = 0 ∨ (shapeLookup front).isSome = true) :
    (back ≠ 0 → front ≠ 0 → back ∉ nonLeftJoiningLetters →
      adjustLetter ⟨back, k, front⟩ = s.Medial) ∧
    (back ≠ 0 → front ≠ 0 → back ∈ nonLeftJoiningLetters →
      adjustLetter ⟨back, k, front⟩ = s.Initial) ∧
    (back = 0 → front ≠ 0 → adjustLetter ⟨back, k, front⟩ = s.Initial) ∧
    (back ≠ 0 → front = 0 → back ∉ nonLeftJoiningLetters →
      adjustLetter ⟨back, k, front⟩ = s.Final) ∧
    (back ≠ 0 → front = 0 → back ∈ nonLeftJoiningLetters →
      adjustLetter ⟨back, k, front⟩ = s.Isolated) ∧
    (back = 0 → front = 0 → adjustLetter ⟨back, k, front⟩ = s.Isolated) := by
  have hs : shapeOf k = s := shapeOf_of_lookup k s hk
  have hb : back ≠ 0 → 0 < back := fun h =>
    hback.elim (fun h0 => absurd h0 h) (key_pos back)
  have hf : front ≠ 0 → 0 < front := fun h =>
    hfront.elim (fun h0 => absurd h0 h) (key_pos front)
  have hrule : ∀ pb pf : Option rune, (∀ b, pb = some b → 0 < b) →
      (∀ f, pf = some f → 0 < f) →
      adjustLetter ⟨pb.getD 0, k, pf.getD 0⟩ = positionRule pb pf s := by
    intro pb pf h1 h2
    rw [adjustLetter_eq_positionRule k pb pf h1 h2, hs]
  refine ⟨?_, ?_, ?_, ?_, ?_, ?_⟩
  · intro h1 h2 h3
    have := hrule (some back) (some front) (fun b hb2 => by cases hb2; exact hb h1)
      (fun f hf2 => by cases hf2; exact hf h2)
    simpa [positionRule, h3] using this
  · intro h1 h2 h3
    have := hrule (some back) (some front) (fun b hb2 => by cases hb2; exact hb h1)
      (fun f hf2 => by cases hf2; exact hf h2)
    simpa [positionRule, h3] using this
  · intro h1 h2
    have := hrule none (some front) (fun b hb2 => by cases hb2)
      (fun f hf2 => by cases hf2; exact hf h2)
    subst h1
    simpa [positionRule] using this
  · intro h1 h2 h3
    have := hrule (some back) none (fun b hb2 => by cases hb2; exact hb h1)
      (fun f hf2 => by cases hf2)
    subst h2
    simpa [positionRule, h3] using this
  · intro h1 h2 h3
    have := hrule (some back) none (fun b hb2 => by cases hb2; exact hb h1)
      (fun f hf2 => by cases hf2)
    subst h2
    simpa [positionRule, h3] using this
  · intro h1 h2
    have := hrule none none (fun b hb2 => by cases hb2) (fun f hf2 => by cases hf2)
    subst h1 h2
    simpa [positionRule] using this

/-- C1, at the letter beh (U+0628) between lam (U+0644) and alef (U+0627):
lam is not in the non-left-joining set, so the medial form U+FE92 is
returned. -/
theorem adjustLetter_position_rule_witness :
    shapeLookup 0x0628 = some ⟨0xFE8F, 0xFE91, 0xFE92, 0xFE90⟩ ∧
    adjustLetter ⟨0x0644, 0x0628, 0x0627⟩ = 0xFE92 :=
  ⟨by decide,
   (adjustLetter_position_rule 0x0628 0x0644 0x0627 ⟨0xFE8F, 0xFE91, 0xFE92, 0xFE90⟩
      (by decide) (Or.inr (by decide)) (Or.inr (by decide))).1
      (by decide) (by decide) (by decide)⟩

/-- C2. `shapeWord` returns, for every word, what the word shaper of the
specification with explicitly optional neighbours returns (`refShapeWord`);
and a word that reaches the shaping loop holds no zero rune, so the sentinel
of an absent neighbour is never the value of a neighbour that is there. -/
theorem shapeWord_refines_reference (w : GoString) :
    shapeWord w = some (refShapeWord w) ∧
    (IsPersian w = true → ∀ c ∈ w, c ≠ 0) := by
  refine ⟨shapeWord_eq w, ?_⟩
  intro h c hc h0
  have := IsPersian_pos w h c hc
  rw [h0] at this
  exact absurd this (by decide)

/-- C3. For an input of script letters and white space only, `ReShape`
returns the fields of the input, each shaped by `shapeWord`, in reverse
order and joined by one space. -/
theorem ReShape_script_text (input : GoString) (h : IsPersian input = true) :
    ∃ shaped : List GoString, (Fields input).mapM shapeWord = some shaped ∧
      ReShape input = some (Join shaped.reverse [0x20]) := by
  refine ⟨(Fields input).map refShapeWord, ?_, ?_⟩
  · exact mapM_eq_some_map shapeWord refShapeWord _ (fun w _ => shapeWord_eq w)
  · rw [ReShape_eq, units_script input h]

/-- C3, at the input space, seen lam, two spaces, beh, space: the two words
come out shaped and in reverse order with one space between them. -/
theorem ReShape_script_text_witness :
    IsPersian [0x20, 0x0633, 0x0644, 0x20, 0x20, 0x0628, 0x20] = true ∧
    ∃ shaped : List GoString,
      (Fields [0x20, 0x0633, 0x0644, 0x20, 0x20, 0x0628, 0x20]).mapM shapeWord = some shaped ∧
      ReShape [0x20, 0x0633, 0x0644, 0x20, 0x20, 0x0628, 0x20]
        = some (Join shaped.reverse [0x20]) :=
  ⟨by decide, ReShape_script_text _ (by decide)⟩

/-- C4 as stated fails: for `a` = "\xff" (one byte that is not valid UTF-8, read
as the character U+FFFD, which is neither white space nor a script letter) and
`p` = beh, `ReShape(a ++ p)` ends with the three bytes of U+FFFD, which are no
part of `a`, so the output is not `shapeWord(p)`, a space and a trimmed `a`. -/
theorem ReShapeString_two_runs_counterexample :
    (∀ c ∈ decodeRunes [0xFF], IsPersianLetter c = false) ∧
    (∃ c ∈ decodeRunes [0xFF], IsSpace c = false) ∧
    (∀ c ∈ decodeRunes [0xD8, 0xA8], IsPersianLetter c = true) ∧
    shapeWordString [0xD8, 0xA8] = some [0xEF, 0xBA, 0x8F] ∧
    ReShapeString ([0xFF] ++ [0xD8, 0xA8])
      = some ([0xEF, 0xBA, 0x8F] ++ [0x20] ++ [0xEF, 0xBF, 0xBD]) ∧
    (∀ lead t trail : GoBytes, [0xFF] = lead ++ t ++ trail →
      ReShapeString ([0xFF] ++ [0xD8, 0xA8]) ≠ some ([0xEF, 0xBA, 0x8F] ++ [0x20] ++ t)) := by
  refine ⟨by decide, by decide, by decide, by decide, by decide, ?_⟩
  intro lead t trail hsplit heq
  have hout : ReShapeString ([0xFF] ++ [0xD8, 0xA8])
      = some ([0xEF, 0xBA, 0x8F] ++ [0x20] ++ [0xEF, 0xBF, 0xBD]) := by decide
  rw [hout] at heq
  have ht : t = [0xEF, 0xBF, 0xBD] := by
    have := Option.some.inj heq
    exact (List.append_cancel_left this).symm
  have hlen := congrArg List.length hsplit
  rw [ht] at hlen
  simp at hlen
  omega

/-- C4, amended. For a valid UTF-8 string `a` without script letters that
holds a character that is not white space, and a non-empty string `p` of
script letters, the two-run inputs give two units in reversed order with one
space between them: `shapeWord(p)`, and `a` without its leading and trailing
white space (`a` is white space, the trimmed string, white space). -/
theorem ReShapeString_two_runs (a p : GoBytes) (hva : ValidString a = true)
    (ha : ∀ c ∈ decodeRunes a, IsPersianLetter c = false)
    (hns : ∃ c ∈ decodeRunes a, IsSpace c = false)
    (hp : p ≠ []) (hpl : ∀ c ∈ decodeRunes p, IsPersianLetter c = true) :
    ∃ (shaped trimmed : GoBytes) (lead trail : GoString),
      shapeWordString p = some shaped ∧
      trimmed = encodeRunes (TrimSpace (decodeRunes a)) ∧
      a = encodeRunes lead ++ trimmed ++ encodeRunes trail ∧
      (∀ c ∈ lead, IsSpace c = true) ∧ (∀ c ∈ trail, IsSpace c = true) ∧
      ReShapeString (a ++ p) = some (shaped ++ [0x20] ++ trimmed) ∧
      ReShapeString (p ++ a) = some (trimmed ++ [0x20] ++ shaped) := by
  obtain ⟨shapedR, hsh, h1, h2⟩ :=
    ReShape_two_runs (decodeRunes a) (decodeRunes p) ha hns (decodeRunes_ne_nil p hp) hpl
  obtain ⟨lead, trail, hsplit, hl, ht⟩ := TrimSpace_bytes a hva
  have hvp : ValidString p = true := letters_valid p hpl
  refine ⟨encodeRunes shapedR, _, lead, trail, ?_, rfl, hsplit, hl, ht, ?_, ?_⟩
  · unfold shapeWordString
    rw [IsPersian_of_letters _ hpl, hsh]
    rfl
  · unfold ReShapeString
    rw [decodeRunes_append a p hva, h1]
    simp only [Option.map_some', encodeRunes_append, encodeRunes_space]
  · unfold ReShapeString
    rw [decodeRunes_append p a hvp, h2]
    simp only [Option.map_some', encodeRunes_append, encodeRunes_space]

/-- C4 amended, at `a` = "a " followed or preceded by the one-letter word beh
(bytes D8 A8), whose shaped form U+FE8F has the bytes EF BA 8F. -/
theorem ReShapeString_two_runs_witness :
    ReShapeString ([0x61, 0x20] ++ [0xD8, 0xA8]) = some [0xEF, 0xBA, 0x8F, 0x20, 0x61] ∧
    ReShapeString ([0xD8, 0xA8] ++ [0x61, 0x20]) = some [0x61, 0x20, 0xEF, 0xBA, 0x8F] := by
  obtain ⟨shaped, trimmed, lead, trail, h1, h2, _, _, _, h3, h4⟩ :=
    ReShapeString_two_runs [0x61, 0x20] [0xD8, 0xA8] (by decide) (by decide)
      ⟨0x61, by decide, by decide⟩ (by decide) (by decide)
  have e1 : shaped = [0xEF, 0xBA, 0x8F] := by
    have : shapeWordString [0xD8, 0xA8] = some [0xEF, 0xBA, 0x8F] := by decide
    rw [this] at h1; exact (Option.some.inj h1).symm
  have e2 : trimmed = [0x61] := by rw [h2]; decide
  rw [h3, h4, e1, e2]
  exact ⟨rfl, rfl⟩

/-- C5 as stated fails: the string " a" holds no script letter and `ReShape`
returns "a", the string without its leading space; the string "\xff" (one byte
that is not valid UTF-8) holds no script letter and `ReShape` returns the
three bytes of U+FFFD. -/
theorem ReShapeString_identity_counterexample :
    (∀ c ∈ decodeRunes [0x20, 0x61], IsPersianLetter c = false) ∧
    ReShapeString [0x20, 0x61] = some [0x61] ∧
    ReShapeString [0x20, 0x61] ≠ some [0x20, 0x61] ∧
    (∀ c ∈ decodeRunes [0xFF], IsPersianLetter c = false) ∧
    ReShapeString [0xFF] = some [0xEF, 0xBF, 0xBD] ∧
    ReShapeString [0xFF] ≠ some [0xFF] := by
  decide

/-- C5, amended. For a valid UTF-8 string that holds no script letter and
neither begins nor ends with a white space character, `ReShape` returns the
string. -/
theorem ReShapeString_other_text (s : GoBytes) (hv : ValidString s = true)
    (h : ∀ c ∈ decodeRunes s, IsPersianLetter c = false)
    (hfirst : ∀ c ∈ (decodeRunes s).head?, IsSpace c = false)
    (hlast : ∀ c ∈ (decodeRunes s).getLast?, IsSpace c = false) :
    ReShapeString s = some s := by
  unfold ReShapeString
  rw [ReShape_no_letters _ h, TrimSpace_eq_self _ (fun c hc => hfirst c hc)
    (fun c hc => hlast c hc)]
  simp only [Option.map_some']
  rw [(ValidString_iff s).mp hv]

/-- C5 amended, at the bytes of "hello, world". -/
theorem ReShapeString_other_text_witness :
    ReShapeString [0x68, 0x65, 0x6C, 0x6C, 0x6F, 0x2C, 0x20, 0x77, 0x6F, 0x72, 0x6C, 0x64]
      = some [0x68, 0x65, 0x6C, 0x6C, 0x6F, 0x2C, 0x20, 0x77, 0x6F, 0x72, 0x6C, 0x64] :=
  ReShapeString_other_text _ (by decide) (by decide) (by decide) (by decide)

/-- C6 as stated fails: `ReShape` does not return "world hello" for
"hello world". -/
theorem ReShape_hello_world_counterexample :
    ReShape (runes "hello world") ≠ some (runes "world hello") := by
  decide

/-- C6, amended. A text without script letters is one section and one output
unit, whatever the number of its words, so that no reordering is visible:
`ReShape` returns "hello world" for "hello world". -/
theorem ReShape_hello_world :
    ReShape (runes "hello world") = some (runes "hello world") := by
  decide

/-- C7. Round trip of shaping: for a word of script letters, `shapeWord`
returns a string whose reversal (by `reverse`), with every glyph mapped back
to its base letter by the inverse of the shape table, is the word. -/
theorem shapeWord_round_trip (w : GoString) (h : ∀ c ∈ w, IsPersianLetter c = true) :
    ∃ shaped back : GoString, shapeWord w = some shaped ∧ reverse shaped = some back ∧
      back.map baseLetterOf = w := by
  refine ⟨refShapeWord w, (refShapeWord w).reverse, shapeWord_eq w, reverse_eq _, ?_⟩
  unfold refShapeWord
  rw [IsPersian_of_letters w h]
  simp only [if_true, List.reverse_reverse]
  exact unshape_mapIdx w h

/-- C7, at the word seen lam alef mim (U+0633 U+0644 U+0627 U+0645). -/
theorem shapeWord_round_trip_witness :
    ∃ shaped back : GoString, shapeWord [0x0633, 0x0644, 0x0627, 0x0645] = some shaped ∧
      reverse shaped = some back ∧
      back.map baseLetterOf = [0x0633, 0x0644, 0x0627, 0x0645] :=
  shapeWord_round_trip [0x0633, 0x0644, 0x0627, 0x0645] (by decide)

/-- C8 as stated fails: in beh alef beh (U+0628 U+0627 U+0628) the letters
before and after the middle one are not in the non-left-joining set, but the
middle letter alef is, so the last letter takes its isolated form U+FE8F and
not its final form U+FE90. -/
theorem shapeWord_three_letters_counterexample :
    shapeLookup 0x0628 = some ⟨0xFE8F, 0xFE91, 0xFE92, 0xFE90⟩ ∧
    shapeLookup 0x0627 = some ⟨0xFE8D, 0x0627, 0xFE8E, 0xFE8E⟩ ∧
    (0x0628 : rune) ∉ nonLeftJoiningLetters ∧
    shapeWord [0x0628, 0x0627, 0x0628] = some [0xFE8F, 0xFE8E, 0xFE91] ∧
    shapeWord [0x0628, 0x0627, 0x0628] ≠ some [0xFE90, 0xFE8E, 0xFE91] := by
  decide

/-- C8, amended. For a three-letter word `a b c` of shape-table keys in which
neither `a` nor `b`, the letters that precede the middle and the last letter,
is in the non-left-joining set, `shapeWord` returns Final(c), Medial(b),
Initial(a). -/
theorem shapeWord_three_letters (a b c : rune) (sa sb sc : letterShape)
    (ha : shapeLookup a = some sa) (hb : shapeLookup b = some sb)
    (hc : shapeLookup c = some sc)
    (hna : a ∉ nonLeftJoiningLetters) (hnb : b ∉ nonLeftJoiningLetters) :
    shapeWord [a, b, c] = some [sc.Final, sb.Medial, sa.Initial] := by
  have hka : IsPersianLetter a = true := key_isPersianLetter a (by rw [ha]; rfl)
  have hkb : IsPersianLetter b = true := key_isPersianLetter b (by rw [hb]; rfl)
  have hkc : IsPersianLetter c = true := key_isPersianLetter c (by rw [hc]; rfl)
  have hp : IsPersian [a, b, c] = true := by
    apply IsPersian_of_letters
    intro x hx
    simp only [List.mem_cons, List.mem_singleton, List.not_mem_nil, or_false] at hx
    rcases hx with h | h | h <;> rw [h] <;> assumption
  rw [shapeWord_eq]
  simp [refShapeWord, hp, List.mapIdx_cons, refShapeAt, ha, hb, hc, positionRule, hna, hnb]

/-- C8 amended, at the word beh lam mim (U+0628 U+0644 U+0645). -/
theorem shapeWord_three_letters_witness :
    shapeWord [0x0628, 0x0644, 0x0645] = some [0xFEE2, 0xFEE0, 0xFE91] :=
  shapeWord_three_letters 0x0628 0x0644 0x0645 ⟨0xFE8F, 0xFE91, 0xFE92, 0xFE90⟩
    ⟨0xFEDD, 0xFEDF, 0xFEE0, 0xFEDE⟩ ⟨0xFEE1, 0xFEE3, 0xFEE4, 0xFEE2⟩
    (by decide) (by decide) (by decide) (by decide) (by decide)

/-- C9. `ReShape` of the empty string is the empty string. -/
theorem ReShape_empty : ReShape [] = some [] := by
  decide

/-- C10. `ReShape` is not idempotent: on alef beh (U+0627 U+0628) it returns
U+FE8F U+0627, and on that string it returns U+FE8D, space, U+FE8F. -/
theorem ReShape_not_idempotent :
    ∃ s once twice : GoString, ReShape s = some once ∧ ReShape once = some twice ∧
      twice ≠ once :=
  ⟨[0x0627, 0x0628], [0xFE8F, 0x0627], [0xFE8D, 0x20, 0xFE8F],
    by decide, by decide, by decide⟩

/-- C11. A character of a word of script text that is not a key of the shape
table is found unchanged in the result of `shapeWord`, at the mirrored
position. -/
theorem shapeWord_keeps_other_letters (w : GoString) (h : IsPersian w = true)
    (i : Nat) (hi : i < w.length) (hk : shapeLookup w[i] = none) :
    ∃ shaped : GoString, shapeWord w = some shaped ∧ shaped.length = w.length ∧
      shaped[w.length - 1 - i]? = some w[i] := by
  refine ⟨refShapeWord w, shapeWord_eq w, ?_, ?_⟩
  · simp [refShapeWord, h]
  · have hlen : w.length - 1 - i < (w.mapIdx (refShapeAt w)).length := by
      simp; omega
    have hidx : (w.mapIdx (refShapeAt w)).length - 1 - (w.length - 1 - i) = i := by
      simp; omega
    simp only [refShapeWord, h, if_true]
    rw [List.getElem?_reverse hlen, hidx, List.getElem?_mapIdx,
      List.getElem?_eq_getElem hi]
    simp [refShapeAt, hk]

/-- C11, at the word teh marbuta, beh (U+0629 U+0628): U+0629 is in the script
range and is not a key of the table. -/
theorem shapeWord_keeps_other_letters_witness :
    ∃ shaped : GoString, shapeWord [0x0629, 0x0628] = some shaped ∧
      shaped.length = 2 ∧ shaped[1]? = some 0x0629 :=
  shapeWord_keeps_other_letters [0x0629, 0x0628] (by decide) 0 (by decide) (by decide)

/-- C12. Digit round trip: on a string without ASCII digits,
`ToPersianDigits` after `ToEnglishDigits` gives the string back. -/
theorem ToPersianDigits_ToEnglishDigits (s : GoString)
    (h : ∀ c ∈ s, ¬ (0x30 ≤ c ∧ c ≤ 0x39)) :
    ToPersianDigits (ToEnglishDigits s) = s := by
  induction s with
  | nil => rfl
  | cons c rest ih =>
    have hc := h c (List.mem_cons_self c rest)
    have ih2 := ih (fun x hx => h x (List.mem_cons_of_mem c hx))
    rw [ToEnglishDigits_cons]
    by_cases hr : 0x6F0 ≤ c ∧ c ≤ 0x6F9
    · rw [if_pos hr, List.singleton_append, ToPersianDigits_cons, ih2]
      have h2 : 0x30 ≤ c - 0x6F0 + 0x30 ∧ c - 0x6F0 + 0x30 ≤ 0x39 := by
        unfold rune at *; omega
      rw [if_pos h2]
      have h3 : c - 0x6F0 + 0x30 - 0x30 + 0x6F0 = c := by unfold rune at *; omega
      rw [h3]; rfl
    · rw [if_neg hr, List.singleton_append, ToPersianDigits_cons, ih2, if_neg hc]
      rfl

/-- C12, at the string "a۱۲ ۰b". -/
theorem ToPersianDigits_ToEnglishDigits_witness :
    ToEnglishDigits (runes "a۱۲ ۰b") = runes "a12 0b" ∧
    ToPersianDigits (ToEnglishDigits (runes "a۱۲ ۰b")) = runes "a۱۲ ۰b" :=
  ⟨by decide, ToPersianDigits_ToEnglishDigits (runes "a۱۲ ۰b") (by decide)⟩

/-- C13. `IsPersian s` holds exactly when every character of `s` is a white
space character or a script letter; it holds for the empty string and for
every string of white space. -/
theorem IsPersian_spec (s : GoString) :
    (IsPersian s = true ↔ ∀ c ∈ s, IsSpace c = true ∨ IsPersianLetter c = true) ∧
    IsPersian [] = true ∧
    ((∀ c ∈ s, IsSpace c = true) → IsPersian s = true) := by
  refine ⟨IsPersian_iff s, rfl, ?_⟩
  intro h
  exact (IsPersian_iff s).mpr (fun c hc => Or.inl (h c hc))

/-- C14. `IsPersianLetter ch` holds exactly when `0x600 ≤ ch ≤ 0x6FF`; the
four boundary values. -/
theorem IsPersianLetter_spec (ch : rune) :
    (IsPersianLetter ch = true ↔ 0x600 ≤ ch ∧ ch ≤ 0x6FF) ∧
    IsPersianLetter 0x5FF = false ∧ IsPersianLetter 0x600 = true ∧
    IsPersianLetter 0x6FF = true ∧ IsPersianLetter 0x700 = false := by
  refine ⟨?_, by decide, by decide, by decide, by decide⟩
  simp [IsPersianLetter]

/-- C15 as stated fails: the string "\xff" (one byte that is not valid UTF-8)
holds no script letter, and `ReShape` returns the three bytes of U+FFFD, which
are not a part of the input. -/
theorem ReShapeString_trimmed_counterexample :
    (∀ c ∈ decodeRunes [0xFF], IsPersianLetter c = false) ∧
    ReShapeString [0xFF] = some [0xEF, 0xBF, 0xBD] ∧
    (∀ lead trail : GoBytes, [0xFF] ≠ lead ++ [0xEF, 0xBF, 0xBD] ++ trail) := by
  refine ⟨by decide, by decide, ?_⟩
  intro lead trail h
  have hlen := congrArg List.length h
  simp at hlen
  omega

/-- C15, amended. For a valid UTF-8 string without script letters, `ReShape`
returns the string without its leading and trailing white space: the input is
a run of white space, the output, and a run of white space; the output neither
begins nor ends with white space; an input of white space only gives the empty
string. -/
theorem ReShapeString_other_text_trimmed (s : GoBytes) (hv : ValidString s = true)
    (h : ∀ c ∈ decodeRunes s, IsPersianLetter c = false) :
    ∃ (out : GoBytes) (lead trail : GoString), ReShapeString s = some out ∧
      out = encodeRunes (TrimSpace (decodeRunes s)) ∧
      s = encodeRunes lead ++ out ++ encodeRunes trail ∧
      (∀ c ∈ lead, IsSpace c = true) ∧ (∀ c ∈ trail, IsSpace c = true) ∧
      (∀ c ∈ (decodeRunes out).head?, IsSpace c = false) ∧
      (∀ c ∈ (decodeRunes out).getLast?, IsSpace c = false) ∧
      ((∀ c ∈ decodeRunes s, IsSpace c = true) → out = []) := by
  obtain ⟨lead, trail, hsplit, hl, ht⟩ := TrimSpace_bytes s hv
  refine ⟨_, lead, trail, ?_, rfl, hsplit, hl, ht, ?_, ?_, ?_⟩
  · unfold ReShapeString
    rw [ReShape_no_letters _ h]
    rfl
  · rw [decodeRunes_TrimSpace]; exact (TrimSpace_ends _).1
  · rw [decodeRunes_TrimSpace]; exact (TrimSpace_ends _).2
  · intro hsp
    rw [TrimSpace_of_spaces _ hsp]
    rfl

/-- C15 amended, at the bytes of "  two  words ": the interior double space is
kept. -/
theorem ReShapeString_other_text_trimmed_witness :
    ReShapeString [0x20, 0x20, 0x74, 0x77, 0x6F, 0x20, 0x20, 0x77, 0x6F, 0x72, 0x64, 0x73, 0x20]
      = some [0x74, 0x77, 0x6F, 0x20, 0x20, 0x77, 0x6F, 0x72, 0x64, 0x73] := by
  obtain ⟨out, lead, trail, h1, h2, _⟩ :=
    ReShapeString_other_text_trimmed
      [0x20, 0x20, 0x74, 0x77, 0x6F, 0x20, 0x20, 0x77, 0x6F, 0x72, 0x64, 0x73, 0x20]
      (by decide) (by decide)
  rw [h1, h2]
  decide

/-- C16. `shapeWord` returns a result for every word (no index expression of
it fails); at every position of the loop a neighbour is read only when its
index lies inside the word; the empty word gives the empty word, and the
one-letter word of a key `c` gives the one-character string Isolated(c). -/
theorem shapeWord_total (w : GoString) :
    (∃ out : GoString, shapeWord w = some out) ∧
    (∀ i : Nat, i < w.length →
      ((i : Int) - 1 ≥ 0 → (index w ((i : Int) - 1)).isSome = true) ∧
      ((i : Int) ≠ (w.length : Int) - 1 → (index w ((i : Int) + 1)).isSome = true)) ∧
    shapeWord [] = some [] ∧
    (∀ (c : rune) (s : letterShape), shapeLookup c = some s →
      shapeWord [c] = some [s.Isolated]) := by
  refine ⟨⟨refShapeWord w, shapeWord_eq w⟩, shapeRune_reads_inside w, by decide, ?_⟩
  intro c s hc
  have hkc : IsPersianLetter c = true := key_isPersianLetter c (by rw [hc]; rfl)
  have hp : IsPersian [c] = true := by
    apply IsPersian_of_letters
    intro x hx
    rw [List.mem_singleton.mp hx]; exact hkc
  rw [shapeWord_eq]
  simp [refShapeWord, hp, List.mapIdx_cons, refShapeAt, hc, positionRule]

/-- C17. The inverse of the shape table is well defined: the keys of the
table are distinct, a glyph that is a form of two entries belongs to entries
with the same key, a form that lies in the script range is the key of its own
entry, and `baseLetterOf` sends every form of an entry to the key of that
entry. -/
theorem inverse_shape_table_well_defined :
    (persianAlphabetShapes.map Prod.fst).Nodup ∧
    (∀ e1 ∈ persianAlphabetShapes, ∀ e2 ∈ persianAlphabetShapes,
      ∀ g : rune, g ∈ formsOf e1.2 → g ∈ formsOf e2.2 → e1.1 = e2.1) ∧
    (∀ e ∈ persianAlphabetShapes, ∀ g ∈ formsOf e.2,
      IsPersianLetter g = true → g = e.1) ∧
    (∀ e ∈ persianAlphabetShapes, ∀ g ∈ formsOf e.2, baseLetterOf g = e.1) := by
  refine ⟨keys_nodup, ?_, ?_, ?_⟩
  · intro e1 h1 e2 h2 g hg1 hg2
    exact forms_distinct e1 h1 e2 h2 ⟨g, hg1, hg2⟩
  · intro e he g hg hp
    obtain ⟨h1, h2, h3, h4⟩ := script_forms_are_keys e he
    simp only [formsOf, List.mem_cons, List.mem_singleton, List.not_mem_nil, or_false] at hg
    rcases hg with h | h | h | h
    · rw [h] at hp ⊢; exact h1 hp
    · rw [h] at hp ⊢; exact h2 hp
    · rw [h] at hp ⊢; exact h3 hp
    · rw [h] at hp ⊢; exact h4 hp
  · intro e he g hg
    obtain ⟨h1, h2, h3, h4⟩ := baseLetterOf_forms e he
    simp only [formsOf, List.mem_cons, List.mem_singleton, List.not_mem_nil, or_false] at hg
    rcases hg with h | h | h | h
    · rw [h]; exact h1
    · rw [h]; exact h2
    · rw [h]; exact h3
    · rw [h]; exact h4

/-- C18. At a run boundary (`a` and `b` not empty, exactly one of the last
character of `a` and the first character of `b` a script letter) the output
for `a ++ b` is the output for `b`, one space, the output for `a` when both
outputs are not empty, and the concatenation of the two outputs otherwise. -/
theorem ReShape_append_boundary (a b : GoString) (ha : a ≠ []) (hb : b ≠ [])
    (h : ∀ c ∈ a.getLast?, ∀ d ∈ b.head?, IsPersianLetter c ≠ IsPersianLetter d) :
    ∃ ra rb : GoString, ReShape a = some ra ∧ ReShape b = some rb ∧
      ReShape (a ++ b)
        = some (if ra ≠ [] ∧ rb ≠ [] then rb ++ [0x20] ++ ra else rb ++ ra) := by
  refine ⟨_, _, ReShape_eq a, ReShape_eq b, ?_⟩
  rw [ReShape_eq, units_append_boundary a b ha hb h, List.reverse_append, Join_append]
  have hua : ∀ u ∈ ((langSectionsOf a).flatMap unitsOf).reverse, u ≠ [] :=
    fun u hu => (units_props a u (List.mem_reverse.mp hu)).1
  have hub : ∀ u ∈ ((langSectionsOf b).flatMap unitsOf).reverse, u ≠ [] :=
    fun u hu => (units_props b u (List.mem_reverse.mp hu)).1
  have ea := Join_eq_nil_iff _ [0x20] hua
  have eb := Join_eq_nil_iff _ [0x20] hub
  congr 1
  by_cases hxa : ((langSectionsOf a).flatMap unitsOf).reverse = []
  · have hja := ea.mpr hxa
    by_cases hxb : ((langSectionsOf b).flatMap unitsOf).reverse = []
    · have hjb := eb.mpr hxb
      simp [hxa, hxb, Join]
    · simp [hxa, hxb, Join]
  · have hja : Join ((langSectionsOf a).flatMap unitsOf).reverse [0x20] ≠ [] :=
      fun h0 => hxa (ea.mp h0)
    by_cases hxb : ((langSectionsOf b).flatMap unitsOf).reverse = []
    · have hjb := eb.mpr hxb
      simp [hxa, hxb, Join]
    · have hjb : Join ((langSectionsOf b).flatMap unitsOf).reverse [0x20] ≠ [] :=
        fun h0 => hxb (eb.mp h0)
      simp [hxa, hxb, hja, hjb]

/-- C18, at `a` = "ab " and `b` = beh: both outputs are not empty. -/
theorem ReShape_append_boundary_witness :
    ReShape (runes "ab " ++ [0x0628]) = some ([0xFE8F] ++ [0x20] ++ runes "ab") := by
  obtain ⟨ra, rb, h1, h2, h3⟩ :=
    ReShape_append_boundary (runes "ab ") [0x0628] (by decide) (by decide) (by decide)
  have e1 : ra = runes "ab" := by
    have : ReShape (runes "ab ") = some (runes "ab") := by decide
    rw [this] at h1; exact (Option.some.inj h1).symm
  have e2 : rb = [0xFE8F] := by
    have : ReShape [0x0628] = some [0xFE8F] := by decide
    rw [this] at h2; exact (Option.some.inj h2).symm
  rw [h3, e1, e2]
  decide

/-- C19. The units that `ReShape` joins are not empty and neither begin nor
end with white space, a shaped word holds no white space at all, and the
output of `ReShape` neither begins nor ends with white space. -/
theorem ReShape_output_trimmed (input : GoString) :
    ∃ (units : List GoString) (out : GoString),
      (langSectionsOf input).foldlM shapeSection [] = some units ∧
      (∀ u ∈ units, u ≠ [] ∧
        (∀ c ∈ u.head?, IsSpace c = false) ∧ (∀ c ∈ u.getLast?, IsSpace c = false)) ∧
      (∀ sec ∈ langSectionsOf input, IsPersian sec = true → ∀ word ∈ Fields sec,
        ∃ shaped : GoString, shapeWord word = some shaped ∧
          ∀ c ∈ shaped, IsSpace c = false) ∧
      ReShape input = some out ∧
      (∀ c ∈ out.head?, IsSpace c = false) ∧ (∀ c ∈ out.getLast?, IsSpace c = false) := by
  refine ⟨(langSectionsOf input).flatMap unitsOf,
    Join ((langSectionsOf input).flatMap unitsOf).reverse [0x20], ?_, units_props input,
    ?_, ReShape_eq input, ?_⟩
  · rw [shapeSections_foldlM]; rfl
  · intro sec _ _ word hword
    exact ⟨refShapeWord word, shapeWord_eq word,
      refShapeWord_no_space word (fun c hc => ((Fields_props sec word hword).2 c hc).1)⟩
  · exact Join_ends _ _ (fun u hu => units_props input u (List.mem_reverse.mp hu))

/-- C20. The static tables agree: a letter is in the non-left-joining set
exactly when it is a key of the shape table whose Medial glyph is its Final
glyph, and every key of the shape table satisfies `IsPersianLetter`. -/
theorem tables_consistent :
    (∀ c : rune, isNoneLeftJoiningLetter c = true ↔
      ∃ s : letterShape, shapeLookup c = some s ∧ s.Medial = s.Final) ∧
    (∀ k : rune, (shapeLookup k).isSome = true → IsPersianLetter k = true) := by
  refine ⟨?_, key_isPersianLetter⟩
  intro c
  rw [isNoneLeftJoiningLetter_iff]
  constructor
  · intro hc
    have := nonLeftJoining_entries c hc
    cases hl : shapeLookup c with
    | none => rw [hl] at this; simp at this
    | some s =>
      rw [hl] at this
      exact ⟨s, rfl, by simpa using this⟩
  · rintro ⟨s, hs, hmf⟩
    exact equal_medial_final_entries (c, s) (mem_of_lookup _ c s hs) hmf

end persian
